import Mathlib

/-!
Moses2 `InputPaths`: span lattice construction and pruning.

Shallow embedding of `contrib/other-builds/moses2/InputPaths.cpp`
(`InputPaths::Init` and `InputPaths::DeleteUnusedPaths`).

* `size_t` values are natural numbers; the arithmetic the code performs on them
  (`startPos + phaseSize - 1`, `phaseSize - 1`, `++startPos`, `++phaseSize`,
  `++ind`) wraps modulo `2 ^ 64`.
* A pointer to an `InputPath` is the slot number of the node in the memory pool.
  Dereferencing a slot that was never allocated, writing a matrix cell outside the
  matrix and asking for a sub-phrase outside the sentence are faults: the
  operation returns `none`.
* Loops carry a fuel argument; running out of fuel returns `none`.
* `InputPaths.InitTrace` is `InputPaths.Init` with a record of the accesses made in
  its loops; `InitTrace_erase` shows that forgetting the record gives `Init`.
-/

namespace Moses2

/-- Number of values of the 64-bit unsigned type `size_t`. -/
def SIZE_MOD : Nat := 2 ^ 64

/-- Addition on `size_t`. -/
def sizeAdd (a b : Nat) : Nat := (a + b) % SIZE_MOD

/-- Subtraction on `size_t` (wraps below zero). -/
def sizeSub (a b : Nat) : Nat := (a + (SIZE_MOD - b % SIZE_MOD)) % SIZE_MOD

/-- Modelled from the spec: the constant `NOT_FOUND` is declared outside
`InputPaths.cpp`; it is the sentinel position of the "undefined" span, the largest
`size_t` value. -/
def NOT_FOUND : Nat := SIZE_MOD - 1

/-- Address of an `InputPath` object: its slot in the memory pool. -/
abbrev Ptr := Nat

/-- Inclusive span `[startPos, endPos]` of token positions (`legacy/Range.h`,
constructor `Range(startPos, endPos)`). -/
structure Range where
  m_startPos : Nat
  m_endPos : Nat
deriving DecidableEq, Repr

/-- Modelled from the spec: `SubPhrase` is declared outside `InputPaths.cpp`; it is
a read-only view into the input sentence corresponding to a span, never a copy. -/
structure SubPhrase where
  m_start : Nat
  m_end : Nat
deriving DecidableEq, Repr

/-- Modelled from the spec: the class `InputPath` is declared outside
`InputPaths.cpp`. A node holds the sub-phrase view, the span it covers, one
(initially empty) translation-option slot per translation table, the reference to
its prefix node (or null) and the mutable "used" flag. -/
structure InputPath where
  subPhrase : SubPhrase
  range : Range
  targetPhrases : List (Option Nat)
  prefixPath : Option Ptr
  m_isUsed : Bool
deriving DecidableEq, Repr

/-- Modelled from the spec: the constructor
`InputPath(pool, subPhrase, range, numPt, prefixPath)` is defined outside
`InputPaths.cpp`; it stores its arguments, makes `numPt` empty option slots and
sets the "used" flag to false. -/
def InputPath.new (subPhrase : SubPhrase) (range : Range) (numPt : Nat)
    (prefixPath : Option Ptr) : InputPath :=
  { subPhrase := subPhrase
    range := range
    targetPhrases := List.replicate numPt none
    prefixPath := prefixPath
    m_isUsed := false }

/-- Modelled from the spec: `InputPath::IsUsed` is defined outside
`InputPaths.cpp`; it reads the "used" flag. -/
def InputPath.IsUsed (p : InputPath) : Bool := p.m_isUsed

/-- Modelled from the spec: the arena `MemPool` is declared outside
`InputPaths.cpp`; it hands out memory with no individual free. Only the
`InputPath` objects placed in it are tracked, one per slot, in allocation order. -/
structure MemPool where
  m_objects : List InputPath
deriving DecidableEq, Repr

/-- Placement construction `new (pool.Allocate<InputPath>()) InputPath(...)`: the
object takes the next free slot, whose number is the pointer returned. -/
def MemPool.New (pool : MemPool) (obj : InputPath) : Ptr × MemPool :=
  (pool.m_objects.length, { m_objects := pool.m_objects ++ [obj] })

/-- Dereference of an `InputPath` pointer. -/
def MemPool.deref (pool : MemPool) (p : Ptr) : Option InputPath :=
  pool.m_objects[p]?

/-- Modelled from the spec: the class template `SquareMatrix` is declared outside
`InputPaths.cpp`; it is a dense two-dimensional table of `m_rows × m_cols` cells,
each holding a node pointer or empty (NULL), with constant-time lookup by
(row, column). Cells are kept row after row. -/
structure SquareMatrix where
  m_rows : Nat
  m_cols : Nat
  m_array : List (Option Ptr)
deriving DecidableEq, Repr

/-- Modelled from the spec: `SquareMatrix(pool, rows, cols)` followed by
`Init(val)` gives a `rows × cols` table with every cell equal to `val`. -/
def SquareMatrix.Init (rows cols : Nat) (val : Option Ptr) : SquareMatrix :=
  { m_rows := rows, m_cols := cols, m_array := List.replicate (rows * cols) val }

/-- Modelled from the spec: `SquareMatrix::SetValue(row, col, val)` stores `val` in
cell `(row, col)`; a cell outside the table is a fault. -/
def SquareMatrix.SetValue (m : SquareMatrix) (row col : Nat) (val : Option Ptr) :
    Option SquareMatrix :=
  if row < m.m_rows ∧ col < m.m_cols then
    some { m with m_array := m.m_array.set (row * m.m_cols + col) val }
  else none

/-- Modelled from the spec: `SquareMatrix::GetValue(row, col)` reads cell
`(row, col)`; the outer `none` is a read outside the table, `some none` an empty
(NULL) cell. -/
def SquareMatrix.GetValue (m : SquareMatrix) (row col : Nat) : Option (Option Ptr) :=
  if row < m.m_rows ∧ col < m.m_cols then m.m_array[row * m.m_cols + col]? else none

/-- Modelled from the spec: `PhraseImpl` is declared outside `InputPaths.cpp`; it
is the tokenized input sentence. -/
structure PhraseImpl where
  m_words : List Nat
deriving DecidableEq, Repr

/-- Modelled from the spec: `PhraseImpl::GetSize`, the sentence length. -/
def PhraseImpl.GetSize (input : PhraseImpl) : Nat := input.m_words.length

/-- Modelled from the spec: `PhraseImpl::GetSubPhrase(start, end)` returns the view
of the tokens `start .. end` (end inclusive); it requires `start ≤ end < length`,
or both arguments equal to the sentinel to request the empty view. -/
def PhraseImpl.GetSubPhrase (input : PhraseImpl) (start stop : Nat) : Option SubPhrase :=
  if (start = NOT_FOUND ∧ stop = NOT_FOUND) ∨ (start ≤ stop ∧ stop < input.GetSize) then
    some { m_start := start, m_end := stop }
  else none

/-- Modelled from the spec: the part of `System` that `Init` reads, the number of
translation tables (`mappings.size()`) and `maxPhraseLength`. -/
structure System where
  mappings : Nat
  maxPhraseLength : Nat
deriving DecidableEq, Repr

/-- Modelled from the spec: the part of `Manager` that `Init` reads, the system
configuration and the per-sentence memory pool (`GetPool()`). -/
structure Manager where
  system : System
  pool : MemPool
deriving DecidableEq, Repr

/-- The members of `InputPaths`: the flat collection `m_inputPaths`, the sentinel
`m_blank` and the index `m_matrix` (both unset before `Init`). -/
structure InputPaths where
  m_inputPaths : List Ptr
  m_blank : Option Ptr
  m_matrix : Option SquareMatrix
deriving DecidableEq, Repr

/-- The inner loop of `InputPaths::Init` (lines 42-58), entered at the loop test
with the current values of `phaseSize` and `prefixPath`. -/
def InputPaths.innerLoop (input : PhraseImpl) (size maxLength numPt startPos : Nat) :
    Nat → Nat → Option Ptr → InputPaths × MemPool → Option (InputPaths × MemPool)
  | 0, _, _, _ => none
  | fuel + 1, phaseSize, prefixPath, (self, pool) =>
    if phaseSize ≤ maxLength then
      let endPos := sizeSub (sizeAdd startPos phaseSize) 1
      if endPos ≥ size then
        some (self, pool)
      else
        match input.GetSubPhrase startPos endPos with
        | none => none
        | some subPhrase =>
          let range : Range := { m_startPos := startPos, m_endPos := endPos }
          let (path, pool1) := pool.New (InputPath.new subPhrase range numPt prefixPath)
          let paths1 := self.m_inputPaths ++ [path]
          let prefixPath1 := paths1.getLast?
          match self.m_matrix with
          | none => none
          | some matrix =>
            match matrix.SetValue startPos (sizeSub phaseSize 1) (some path) with
            | none => none
            | some matrix1 =>
              InputPaths.innerLoop input size maxLength numPt startPos fuel
                (sizeAdd phaseSize 1) prefixPath1
                ({ self with m_inputPaths := paths1, m_matrix := some matrix1 }, pool1)
    else
      some (self, pool)

/-- The outer loop of `InputPaths::Init` (lines 39-59), entered at the loop test
with the current value of `startPos`; `innerFuel` is the fuel of each inner loop. -/
def InputPaths.outerLoop (input : PhraseImpl) (size maxLength numPt innerFuel : Nat) :
    Nat → Nat → InputPaths × MemPool → Option (InputPaths × MemPool)
  | 0, _, _ => none
  | fuel + 1, startPos, st =>
    if startPos < size then
      match InputPaths.innerLoop input size maxLength numPt startPos innerFuel 1 none st with
      | none => none
      | some st1 =>
        InputPaths.outerLoop input size maxLength numPt innerFuel fuel (sizeAdd startPos 1) st1
    else
      some st

/-- The method `InputPaths::Init(input, mgr)` (lines 23-61): returns the object and
the manager's pool as they are when the method returns. -/
def InputPaths.Init (self : InputPaths) (fuel : Nat) (input : PhraseImpl) (mgr : Manager) :
    Option (InputPaths × MemPool) :=
  let pool := mgr.pool
  let numPt := mgr.system.mappings
  let size := input.GetSize
  let maxLength := min size mgr.system.maxPhraseLength
  let matrix := SquareMatrix.Init size maxLength none
  let range : Range := { m_startPos := NOT_FOUND, m_endPos := NOT_FOUND }
  match input.GetSubPhrase NOT_FOUND NOT_FOUND with
  | none => none
  | some subPhrase =>
    let (blank, pool1) := pool.New (InputPath.new subPhrase range numPt none)
    InputPaths.outerLoop input size maxLength numPt fuel fuel 0
      ({ self with m_matrix := some matrix, m_blank := some blank }, pool1)

/-- The loop of `InputPaths::DeleteUnusedPaths` (lines 66-74), entered at the loop
test with the current value of `ind` and the current content of `m_inputPaths`. -/
def InputPaths.deleteLoop (pool : MemPool) : Nat → Nat → List Ptr → Option (List Ptr)
  | 0, _, _ => none
  | fuel + 1, ind, paths =>
    if ind < paths.length then
      match paths[ind]? with
      | none => none
      | some path =>
        match pool.deref path with
        | none => none
        | some node =>
          if !node.IsUsed then
            InputPaths.deleteLoop pool fuel ind (paths.eraseIdx ind)
          else
            InputPaths.deleteLoop pool fuel (sizeAdd ind 1) paths
    else
      some paths

/-- The method `InputPaths::DeleteUnusedPaths()` (lines 63-75): returns the object
and the pool holding its nodes as they are when the method returns. -/
def InputPaths.DeleteUnusedPaths (self : InputPaths) (fuel : Nat) (pool : MemPool) :
    Option (InputPaths × MemPool) :=
  match InputPaths.deleteLoop pool fuel 0 self.m_inputPaths with
  | none => none
  | some paths => some ({ self with m_inputPaths := paths }, pool)

/-- A freshly constructed `InputPaths`: empty flat collection, members unset. -/
def InputPaths.empty : InputPaths :=
  { m_inputPaths := [], m_blank := none, m_matrix := none }

/-- Modelled from the spec: the search collaborator flips the "used" flag of the
node at `p` to true when it first consults the node (a pointer to no node changes
nothing). -/
def MemPool.SetUsed (pool : MemPool) (p : Ptr) : MemPool :=
  match pool.deref p with
  | none => pool
  | some node => { m_objects := pool.m_objects.set p { node with m_isUsed := true } }

/-- Whether the pointer `p` leads to a node whose `IsUsed()` is true. -/
def MemPool.usedAt (pool : MemPool) (p : Ptr) : Bool :=
  match pool.deref p with
  | none => false
  | some node => node.IsUsed

/-- The `Range` of the node a pointer leads to. -/
def MemPool.rangeAt (pool : MemPool) (p : Ptr) : Option Range :=
  (pool.deref p).map InputPath.range

/-- The undefined span `(NOT_FOUND, NOT_FOUND)`. -/
def Range.undefined : Range := { m_startPos := NOT_FOUND, m_endPos := NOT_FOUND }

/-- A sentence of three tokens. -/
def sentence3 : PhraseImpl := { m_words := [7, 8, 9] }

/-- A sentence of one token. -/
def sentence1 : PhraseImpl := { m_words := [7] }

/-- A manager with one translation table, `maxPhraseLength = 2` and an empty pool. -/
def manager2 : Manager := { system := { mappings := 1, maxPhraseLength := 2 }, pool := { m_objects := [] } }

/-- A pool of four nodes, of which those at addresses 1 and 3 are used. -/
def poolUsed13 : MemPool :=
  { m_objects :=
      [ InputPath.new { m_start := 0, m_end := 0 } { m_startPos := 0, m_endPos := 0 } 1 none,
        { InputPath.new { m_start := 0, m_end := 1 } { m_startPos := 0, m_endPos := 1 } 1 (some 0)
            with m_isUsed := true },
        InputPath.new { m_start := 1, m_end := 1 } { m_startPos := 1, m_endPos := 1 } 1 none,
        { InputPath.new { m_start := 1, m_end := 2 } { m_startPos := 1, m_endPos := 2 } 1 (some 2)
            with m_isUsed := true } ] }

/-- An `InputPaths` whose flat collection lists the four nodes of `poolUsed13`. -/
def prunable : InputPaths :=
  { m_inputPaths := [0, 1, 2, 3], m_blank := none, m_matrix := none }

/-- The enumeration of the valid spans of a sentence of length `n` with maximum
span length `M`, as the specification orders the flat collection: start position
ascending and, within one start `s`, span length ascending from 1 to
`min M (n - s)`. -/
def validSpans (n M : Nat) : List Range :=
  (List.range n).flatMap fun s =>
    (List.range (min M (n - s))).map fun k => { m_startPos := s, m_endPos := s + k }

/-- Marking a list of nodes used, one after the other. -/
def MemPool.markAll (pool : MemPool) (ps : List Ptr) : MemPool :=
  ps.foldl MemPool.SetUsed pool

/-- Rounds of search and pruning after `Init`: in every round the search marks the
nodes it consulted as used, then `DeleteUnusedPaths` is called. -/
def InputPaths.pruneRounds (fuel : Nat) :
    List (List Ptr) → InputPaths × MemPool → Option (InputPaths × MemPool)
  | [], st => some st
  | marks :: rest, st =>
    match st.1.DeleteUnusedPaths fuel (st.2.markAll marks) with
    | none => none
    | some st1 => InputPaths.pruneRounds fuel rest st1

/-- Index-reachability of the flat collection: every pointer of `m_inputPaths`
leads to a node, and the node with `Range` `[s, e]` is the content of index cell
`(s, e - s)`. -/
def InputPaths.IndexReachable (st : InputPaths × MemPool) : Prop :=
  ∃ mat, st.1.m_matrix = some mat ∧
    ∀ p ∈ st.1.m_inputPaths, ∃ node, st.2.deref p = some node ∧
      mat.GetValue node.range.m_startPos (node.range.m_endPos - node.range.m_startPos)
        = some (some p)

/-- A pool of two nodes, neither of which is used. -/
def poolNoneUsed : MemPool :=
  { m_objects :=
      [ InputPath.new { m_start := 0, m_end := 0 } { m_startPos := 0, m_endPos := 0 } 1 none,
        InputPath.new { m_start := 0, m_end := 1 } { m_startPos := 0, m_endPos := 1 } 1 (some 0) ] }

/-- The pool `poolNoneUsed` after both of its nodes were marked used. -/
def poolAllUsed : MemPool := poolNoneUsed.markAll [0, 1]

/-- An `InputPaths` whose flat collection lists the two nodes of `poolNoneUsed`. -/
def twoPaths : InputPaths :=
  { m_inputPaths := [0, 1], m_blank := none, m_matrix := none }

/-- The empty sentence. -/
def sentence0 : PhraseImpl := { m_words := [] }

/-- A manager with one translation table, `maxPhraseLength = 1` and an empty pool. -/
def managerOne : Manager :=
  { system := { mappings := 1, maxPhraseLength := 1 }, pool := { m_objects := [] } }

/-- An access made in the loops of `InputPaths::Init`: the computation
`endPos = startPos + phaseSize - 1` (line 43), the call
`input.GetSubPhrase(startPos, endPos)` (line 49) and the call
`m_matrix->SetValue(startPos, phaseSize - 1, path)` (line 57). -/
inductive Access where
  | endPos (startPos phaseSize : Nat)
  | getSubPhrase (startPos endPos : Nat)
  | setValue (row col : Nat)
deriving DecidableEq, Repr

/-- Whether an access is in bounds for a sentence of length `size` and an index of
`size × maxLength` cells: the sum `startPos + phaseSize` is at least 1 and fits
`size_t`, so that subtracting 1 does not wrap; a sub-phrase has
`startPos ≤ endPos < size`; a written cell has `row < size` and `col < maxLength`. -/
def Access.inBounds (size maxLength : Nat) : Access → Bool
  | Access.endPos start len => decide (1 ≤ start + len ∧ start + len < SIZE_MOD)
  | Access.getSubPhrase start stop => decide (start ≤ stop ∧ stop < size)
  | Access.setValue row col => decide (row < size ∧ col < maxLength)

/-- The inner loop of `InputPaths::Init` (lines 42-58) as `InputPaths.innerLoop`,
recording besides the state every access it makes, in order. -/
def InputPaths.innerLoopTrace (input : PhraseImpl) (size maxLength numPt startPos : Nat) :
    Nat → Nat → Option Ptr → (InputPaths × MemPool) × List Access →
      Option ((InputPaths × MemPool) × List Access)
  | 0, _, _, _ => none
  | fuel + 1, phaseSize, prefixPath, ((self, pool), log) =>
    if phaseSize ≤ maxLength then
      let endPos := sizeSub (sizeAdd startPos phaseSize) 1
      let log1 := log ++ [Access.endPos startPos phaseSize]
      if endPos ≥ size then
        some ((self, pool), log1)
      else
        let log2 := log1 ++ [Access.getSubPhrase startPos endPos]
        match input.GetSubPhrase startPos endPos with
        | none => none
        | some subPhrase =>
          let range : Range := { m_startPos := startPos, m_endPos := endPos }
          let (path, pool1) := pool.New (InputPath.new subPhrase range numPt prefixPath)
          let paths1 := self.m_inputPaths ++ [path]
          let prefixPath1 := paths1.getLast?
          match self.m_matrix with
          | none => none
          | some matrix =>
            let log3 := log2 ++ [Access.setValue startPos (sizeSub phaseSize 1)]
            match matrix.SetValue startPos (sizeSub phaseSize 1) (some path) with
            | none => none
            | some matrix1 =>
              InputPaths.innerLoopTrace input size maxLength numPt startPos fuel
                (sizeAdd phaseSize 1) prefixPath1
                (({ self with m_inputPaths := paths1, m_matrix := some matrix1 }, pool1), log3)
    else
      some ((self, pool), log)

/-- The outer loop of `InputPaths::Init` (lines 39-59) as `InputPaths.outerLoop`,
recording the accesses of its inner loops. -/
def InputPaths.outerLoopTrace (input : PhraseImpl) (size maxLength numPt innerFuel : Nat) :
    Nat → Nat → (InputPaths × MemPool) × List Access →
      Option ((InputPaths × MemPool) × List Access)
  | 0, _, _ => none
  | fuel + 1, startPos, st =>
    if startPos < size then
      match InputPaths.innerLoopTrace input size maxLength numPt startPos innerFuel 1 none st
        with
      | none => none
      | some st1 =>
        InputPaths.outerLoopTrace input size maxLength numPt innerFuel fuel
          (sizeAdd startPos 1) st1
    else
      some st

/-- The method `InputPaths::Init` as `InputPaths.Init`, recording besides the state
it returns the accesses made in its loops, in order. -/
def InputPaths.InitTrace (self : InputPaths) (fuel : Nat) (input : PhraseImpl)
    (mgr : Manager) : Option ((InputPaths × MemPool) × List Access) :=
  let pool := mgr.pool
  let numPt := mgr.system.mappings
  let size := input.GetSize
  let maxLength := min size mgr.system.maxPhraseLength
  let matrix := SquareMatrix.Init size maxLength none
  let range : Range := { m_startPos := NOT_FOUND, m_endPos := NOT_FOUND }
  match input.GetSubPhrase NOT_FOUND NOT_FOUND with
  | none => none
  | some subPhrase =>
    let (blank, pool1) := pool.New (InputPath.new subPhrase range numPt none)
    InputPaths.outerLoopTrace input size maxLength numPt fuel fuel 0
      (({ self with m_matrix := some matrix, m_blank := some blank }, pool1), [])

/-! ## Descriptions used in the proofs -/

/-- The node `Init` builds for the span of length `len` starting at `s`, when the
first node of that start position sits at address `a0`: the node itself sits at
`a0 + len - 1` and its prefix, if any, right before it. -/
def specNode (numPt a0 s len : Nat) : InputPath :=
  InputPath.new { m_start := s, m_end := s + len - 1 } { m_startPos := s, m_endPos := s + len - 1 }
    numPt (if len = 1 then none else some (a0 + len - 2))

/-- Number of spans that start at position `t`: lengths `1 .. min M (n - t)`. -/
def rowLen (n M t : Nat) : Nat := min M (n - t)

/-- Number of spans that start before position `t`. -/
def spanCount (n M : Nat) : Nat → Nat
  | 0 => 0
  | t + 1 => spanCount n M t + rowLen n M t

/-- The nodes built for start position `t`, the first of all nodes sitting at
address `base`. -/
def rowNodes (numPt n M base t : Nat) : List InputPath :=
  (List.range' 1 (rowLen n M t)).map (specNode numPt (base + spanCount n M t) t)

/-- The sentinel node built by `Init`. -/
def blankNode (numPt : Nat) : InputPath :=
  InputPath.new { m_start := NOT_FOUND, m_end := NOT_FOUND }
    { m_startPos := NOT_FOUND, m_endPos := NOT_FOUND } numPt none

/-- All the nodes of the lattice in construction order, the first one sitting at
address `base`. -/
def latticeNodes (numPt n M base : Nat) : List InputPath :=
  (List.range n).flatMap (rowNodes numPt n M base)

/-! ## Arithmetic of `size_t` -/

theorem SIZE_MOD_eq : SIZE_MOD = 18446744073709551616 := by decide

theorem sizeAdd_mod_one (a : Nat) :
    sizeAdd (a % SIZE_MOD) 1 = (a + 1) % SIZE_MOD := by
  simp only [sizeAdd, SIZE_MOD_eq] at *
  omega

theorem endPos_eq (s L : Nat) (h1 : 1 ≤ L) (h2 : s + L - 1 < SIZE_MOD) :
    sizeSub (sizeAdd s (L % SIZE_MOD)) 1 = s + L - 1 := by
  simp only [sizeAdd, sizeSub, SIZE_MOD_eq] at *
  omega

theorem sizeSub_one (L : Nat) (h1 : 1 ≤ L) (h2 : L < SIZE_MOD) :
    sizeSub (L % SIZE_MOD) 1 = L - 1 := by
  simp only [sizeSub, SIZE_MOD_eq] at *
  omega

/-! ## Cells of the row-major table -/

theorem cell_index_lt (n M t c : Nat) (ht : t < n) (hc : c < M) : t * M + c < n * M := by
  have h : (t + 1) * M ≤ n * M := Nat.mul_le_mul_right M ht
  have h2 : (t + 1) * M = t * M + M := by ring
  omega

theorem cell_index_inj (M t c t1 c1 : Nat) (hc : c < M) (hc1 : c1 < M)
    (h : t * M + c = t1 * M + c1) : t = t1 ∧ c = c1 := by
  have hM : 0 < M := by omega
  have e1 : (t * M + c) / M = t := by
    rw [Nat.add_comm, Nat.add_mul_div_right _ _ hM, Nat.div_eq_of_lt hc, Nat.zero_add]
  have e2 : (t1 * M + c1) / M = t1 := by
    rw [Nat.add_comm, Nat.add_mul_div_right _ _ hM, Nat.div_eq_of_lt hc1, Nat.zero_add]
  have ht : t = t1 := by rw [← e1, ← e2, h]
  subst ht
  exact ⟨rfl, by omega⟩

theorem cell_set_get (arr : List (Option Ptr)) (M n t c t1 c1 : Nat) (v : Option Ptr)
    (hlen : arr.length = n * M) (ht1 : t1 < n) (hc : c < M) (hc1 : c1 < M) :
    (arr.set (t1 * M + c1) v)[t * M + c]? =
      if t = t1 ∧ c = c1 then some v else arr[t * M + c]? := by
  have hlt := cell_index_lt n M t1 c1 ht1 hc1
  by_cases h : t = t1 ∧ c = c1
  · obtain ⟨rfl, rfl⟩ := h
    simp [List.getElem?_set, hlen, hlt]
  · have hne : t1 * M + c1 ≠ t * M + c := by
      intro e
      exact h (by
        have := cell_index_inj M t1 c1 t c hc1 hc e
        exact ⟨this.1.symm, this.2.symm⟩)
    rw [if_neg h, List.getElem?_set_ne hne]

/-! ## What the loops of `Init` build -/

theorem innerLoop_run (input : PhraseImpl) (n M numPt s a0 : Nat)
    (hsz : input.GetSize = n) (hn : n < SIZE_MOD) (hs : s < n) :
    ∀ (r fuel L : Nat) (pre : Option Ptr) (self : InputPaths) (pool : MemPool)
      (mat : SquareMatrix),
      r < fuel → 1 ≤ L → L + r ≤ M + 1 → s + L + r ≤ n + 1 →
      (L + r = M + 1 ∨ s + L + r = n + 1) →
      pool.m_objects.length = a0 + (L - 1) →
      pre = (if L = 1 then none else some (a0 + L - 2)) →
      self.m_matrix = some mat → mat.m_rows = n → mat.m_cols = M →
      mat.m_array.length = n * M →
      ∃ mat1 : SquareMatrix,
        InputPaths.innerLoop input n M numPt s fuel (L % SIZE_MOD) pre (self, pool)
          = some ({ self with
                      m_inputPaths := self.m_inputPaths ++
                        (List.range' L r).map (fun len => a0 + len - 1),
                      m_matrix := some mat1 },
                  { m_objects := pool.m_objects ++ (List.range' L r).map (specNode numPt a0 s) })
        ∧ mat1.m_rows = n ∧ mat1.m_cols = M ∧ mat1.m_array.length = n * M
        ∧ ∀ t c, t < n → c < M →
            mat1.m_array[t * M + c]? =
              if t = s ∧ L - 1 ≤ c ∧ c < L - 1 + r then some (some (a0 + c))
              else mat.m_array[t * M + c]? := by
  intro r
  induction r with
  | zero =>
    intro fuel L pre self pool mat hf hL h1 h2 h3 hlen hpre hmat hrows hcols harr
    refine ⟨mat, ?_, hrows, hcols, harr, ?_⟩
    · obtain ⟨fuel, rfl⟩ : ∃ k, fuel = k + 1 := ⟨fuel - 1, by omega⟩
      have hend : sizeSub (sizeAdd s (L % SIZE_MOD)) 1 = s + L - 1 :=
        endPos_eq s L hL (by omega)
      have hself : ({ self with m_inputPaths := self.m_inputPaths ++ [], m_matrix := some mat }
          : InputPaths) = self := by
        cases self; simp_all
      simp only [InputPaths.innerLoop, hend, List.range'_zero, List.map_nil, List.append_nil]
      have hself2 : ({ self with m_inputPaths := self.m_inputPaths, m_matrix := some mat }
          : InputPaths) = self := by
        cases self; simp_all
      rw [hself2]
      split_ifs with ha hb
      · rfl
      · exfalso
        have : L % SIZE_MOD ≤ M := ha
        simp only [SIZE_MOD_eq] at this hn
        omega
      · rfl
    · intro t c _ _
      have : ¬ (t = s ∧ L - 1 ≤ c ∧ c < L - 1 + 0) := by omega
      rw [if_neg this]
  | succ r ih =>
    intro fuel L pre self pool mat hf hL h1 h2 h3 hlen hpre hmat hrows hcols harr
    obtain ⟨fuel, rfl⟩ : ∃ k, fuel = k + 1 := ⟨fuel - 1, by omega⟩
    have hLW : L < SIZE_MOD := by omega
    have hLmod : L % SIZE_MOD = L := Nat.mod_eq_of_lt hLW
    have hend : sizeSub (sizeAdd s (L % SIZE_MOD)) 1 = s + L - 1 :=
      endPos_eq s L hL (by omega)
    have hcol : sizeSub (L % SIZE_MOD) 1 = L - 1 := sizeSub_one L hL hLW
    have hnext : sizeAdd (L % SIZE_MOD) 1 = (L + 1) % SIZE_MOD := sizeAdd_mod_one L
    have hsub : input.GetSubPhrase s (s + L - 1)
        = some { m_start := s, m_end := s + L - 1 } := by
      unfold PhraseImpl.GetSubPhrase
      rw [if_pos]
      right
      rw [hsz]
      omega
    have hset : mat.SetValue s (L - 1) (some (a0 + (L - 1)))
        = some { mat with m_array := mat.m_array.set (s * M + (L - 1)) (some (a0 + (L - 1))) } := by
      unfold SquareMatrix.SetValue
      rw [if_pos (by omega), hcols]
    obtain ⟨mat1, hrun, hr1, hc1, ha1, hcells⟩ :=
      ih fuel (L + 1) (some (a0 + (L - 1)))
        { self with
            m_inputPaths := self.m_inputPaths ++ [a0 + (L - 1)],
            m_matrix := some { mat with
              m_array := mat.m_array.set (s * M + (L - 1)) (some (a0 + (L - 1))) } }
        { m_objects := pool.m_objects ++ [specNode numPt a0 s L] }
        { mat with m_array := mat.m_array.set (s * M + (L - 1)) (some (a0 + (L - 1))) }
        (by omega) (by omega) (by omega) (by omega) (by omega)
        (by simp [hlen]; omega)
        (by
          have e : a0 + (L - 1) = a0 + (L + 1) - 2 := by omega
          rw [if_neg (by omega), e])
        rfl hrows hcols (by simp [harr])
    refine ⟨mat1, ?_, hr1, hc1, ha1, ?_⟩
    · rw [InputPaths.innerLoop]
      rw [hend, hcol, hnext, hLmod]
      rw [if_pos (by omega)]
      simp only [ge_iff_le]
      rw [if_neg (by omega), hsub]
      simp only [MemPool.New, hmat, hlen, hset, List.getLast?_concat]
      have hnode : InputPath.new { m_start := s, m_end := s + L - 1 }
          { m_startPos := s, m_endPos := s + L - 1 } numPt pre = specNode numPt a0 s L := by
        rw [specNode, hpre]
      rw [hnode, hrun]
      simp [List.range'_succ, List.append_assoc]
      omega
    · intro t c ht hc
      rw [hcells t c ht hc]
      simp only [cell_set_get mat.m_array M n t c s (L - 1) (some (a0 + (L - 1))) harr hs hc
        (by omega)]
      by_cases h : t = s ∧ c = L - 1
      · obtain ⟨rfl, rfl⟩ := h
        simp
      · by_cases h5 : t = s ∧ L + 1 - 1 ≤ c ∧ c < L + 1 - 1 + r
        · rw [if_pos h5, if_pos (by omega)]
        · rw [if_neg h5, if_neg h]
          by_cases h6 : t = s ∧ L - 1 ≤ c ∧ c < L - 1 + (r + 1)
          · exfalso; omega
          · rw [if_neg h6]

theorem spanCount_mono (n M : Nat) : ∀ r s, spanCount n M s ≤ spanCount n M (s + r) := by
  intro r
  induction r with
  | zero => intro s; exact Nat.le_refl _
  | succ r ih =>
    intro s
    have := ih s
    rw [← Nat.add_assoc, spanCount]
    omega

theorem one_mod_SIZE_MOD : 1 % SIZE_MOD = 1 := by decide

theorem outerLoop_run (input : PhraseImpl) (n M numPt base innerFuel : Nat)
    (hsz : input.GetSize = n) (hn : n < SIZE_MOD) (hM : M ≤ n) (hif : n < innerFuel) :
    ∀ (r fuel s : Nat) (self : InputPaths) (pool : MemPool) (mat : SquareMatrix),
      r < fuel → s + r = n →
      pool.m_objects.length = base + spanCount n M s →
      self.m_matrix = some mat → mat.m_rows = n → mat.m_cols = M →
      mat.m_array.length = n * M →
      ∃ mat1 : SquareMatrix,
        InputPaths.outerLoop input n M numPt innerFuel fuel s (self, pool)
          = some ({ self with
                      m_inputPaths := self.m_inputPaths ++
                        List.range' (base + spanCount n M s) (spanCount n M n - spanCount n M s),
                      m_matrix := some mat1 },
                  { m_objects := pool.m_objects ++
                      (List.range' s r).flatMap (rowNodes numPt n M base) })
        ∧ mat1.m_rows = n ∧ mat1.m_cols = M ∧ mat1.m_array.length = n * M
        ∧ ∀ t c, t < n → c < M →
            mat1.m_array[t * M + c]? =
              if s ≤ t ∧ c < rowLen n M t then some (some (base + spanCount n M t + c))
              else mat.m_array[t * M + c]? := by
  intro r
  induction r with
  | zero =>
    intro fuel s self pool mat hf hsr hlen hmat hrows hcols harr
    obtain ⟨fuel, rfl⟩ : ∃ k, fuel = k + 1 := ⟨fuel - 1, by omega⟩
    have hs : s = n := by omega
    subst hs
    refine ⟨mat, ?_, hrows, hcols, harr, ?_⟩
    · rw [InputPaths.outerLoop, if_neg (Nat.lt_irrefl _)]
      cases self
      simp_all
    · intro t c ht hc
      rw [if_neg (by omega)]
  | succ r ih =>
    intro fuel s self pool mat hf hsr hlen hmat hrows hcols harr
    obtain ⟨fuel, rfl⟩ : ∃ k, fuel = k + 1 := ⟨fuel - 1, by omega⟩
    have hs : s < n := by omega
    have hrl : rowLen n M s = min M (n - s) := rfl
    obtain ⟨mat1, hrun1, hr1, hc1, ha1, hcells1⟩ :=
      innerLoop_run input n M numPt s (base + spanCount n M s) hsz hn hs
        (rowLen n M s) innerFuel 1 none self pool mat
        (by omega) (Nat.le_refl 1) (by omega) (by omega) (by omega)
        (by simpa using hlen) (by simp) hmat hrows hcols harr
    rw [one_mod_SIZE_MOD] at hrun1
    obtain ⟨mat2, hrun2, hr2, hc2, ha2, hcells2⟩ :=
      ih fuel (s + 1)
        { self with
            m_inputPaths := self.m_inputPaths ++
              (List.range' 1 (rowLen n M s)).map (fun len => base + spanCount n M s + len - 1),
            m_matrix := some mat1 }
        { m_objects := pool.m_objects ++
            (List.range' 1 (rowLen n M s)).map (specNode numPt (base + spanCount n M s) s) }
        mat1 (by omega) (by omega)
        (by simp [hlen, spanCount]; omega)
        rfl hr1 hc1 ha1
    have hnext : sizeAdd s 1 = s + 1 := by
      simp only [sizeAdd, SIZE_MOD_eq] at *
      omega
    have hptrs : (List.range' 1 (rowLen n M s)).map (fun len => base + spanCount n M s + len - 1)
        = List.range' (base + spanCount n M s) (rowLen n M s) := by
      rw [List.range'_eq_map_range, List.range'_eq_map_range (base + spanCount n M s),
        List.map_map]
      apply List.map_congr_left
      intro a _
      simp only [Function.comp]
      omega
    have hmono : spanCount n M (s + 1) ≤ spanCount n M n := by
      have := spanCount_mono n M r (s + 1)
      rwa [show s + 1 + r = n by omega] at this
    refine ⟨mat2, ?_, hr2, hc2, ha2, ?_⟩
    · rw [InputPaths.outerLoop, if_pos hs, hrun1]
      simp only [hnext]
      rw [hrun2]
      simp only [List.range'_succ, List.flatMap_cons, rowNodes, List.append_assoc, hptrs]
      congr 3
      rw [show base + spanCount n M (s + 1) = base + spanCount n M s + rowLen n M s by
        rw [spanCount]; omega]
      rw [List.range'_append_1]
      rw [spanCount] at hmono ⊢
      have e : spanCount n M n - (spanCount n M s + rowLen n M s) + rowLen n M s
          = spanCount n M n - spanCount n M s := by omega
      rw [e]
    · intro t c ht hc
      rw [hcells2 t c ht hc, hcells1 t c ht hc]
      by_cases h1 : s + 1 ≤ t ∧ c < rowLen n M t
      · rw [if_pos h1, if_pos ⟨by omega, h1.2⟩]
      · rw [if_neg h1]
        by_cases h2 : t = s ∧ 1 - 1 ≤ c ∧ c < 1 - 1 + rowLen n M s
        · obtain ⟨rfl, _, h3⟩ := h2
          rw [if_pos ⟨rfl, by omega, h3⟩, if_pos ⟨Nat.le_refl _, by omega⟩]
        · rw [if_neg h2, if_neg]
          rintro ⟨h4, h5⟩
          by_cases h6 : t = s
          · subst h6
            exact h2 ⟨rfl, by omega, by omega⟩
          · exact h1 ⟨by omega, h5⟩

theorem Init_run (self : InputPaths) (fuel : Nat) (input : PhraseImpl) (mgr : Manager)
    (hn : input.GetSize < SIZE_MOD) (hfuel : input.GetSize < fuel) :
    ∃ mat : SquareMatrix,
      self.Init fuel input mgr
        = some ({ m_inputPaths := self.m_inputPaths ++
                    List.range' (mgr.pool.m_objects.length + 1)
                      (spanCount input.GetSize (min input.GetSize mgr.system.maxPhraseLength)
                        input.GetSize),
                  m_blank := some mgr.pool.m_objects.length,
                  m_matrix := some mat },
                { m_objects := mgr.pool.m_objects ++
                    blankNode mgr.system.mappings ::
                      latticeNodes mgr.system.mappings input.GetSize
                        (min input.GetSize mgr.system.maxPhraseLength)
                        (mgr.pool.m_objects.length + 1) })
      ∧ mat.m_rows = input.GetSize
      ∧ mat.m_cols = min input.GetSize mgr.system.maxPhraseLength
      ∧ ∀ t c, t < input.GetSize → c < min input.GetSize mgr.system.maxPhraseLength →
          mat.GetValue t c =
            some (if c < rowLen input.GetSize (min input.GetSize mgr.system.maxPhraseLength) t
              then some (mgr.pool.m_objects.length + 1 +
                spanCount input.GetSize (min input.GetSize mgr.system.maxPhraseLength) t + c)
              else none) := by
  obtain ⟨n, hsz⟩ : ∃ n, input.GetSize = n := ⟨_, rfl⟩
  obtain ⟨M, hMdef⟩ : ∃ M, min n mgr.system.maxPhraseLength = M := ⟨_, rfl⟩
  rw [hsz] at hn hfuel ⊢
  rw [hMdef]
  have hM : M ≤ n := by omega
  obtain ⟨mat1, hrun, hr, hc, ha, hcells⟩ :=
    outerLoop_run input n M mgr.system.mappings (mgr.pool.m_objects.length + 1) fuel
      hsz hn hM hfuel n fuel 0
      { self with m_matrix := some (SquareMatrix.Init n M none),
                  m_blank := some mgr.pool.m_objects.length }
      { m_objects := mgr.pool.m_objects ++ [blankNode mgr.system.mappings] }
      (SquareMatrix.Init n M none) hfuel (by omega) (by simp [spanCount]) rfl rfl rfl
      (by simp [SquareMatrix.Init])
  refine ⟨mat1, ?_, hr, hc, ?_⟩
  · have hsub : input.GetSubPhrase NOT_FOUND NOT_FOUND
        = some { m_start := NOT_FOUND, m_end := NOT_FOUND } := by
      unfold PhraseImpl.GetSubPhrase
      rw [if_pos (Or.inl ⟨rfl, rfl⟩)]
    unfold InputPaths.Init
    simp only [hsz, hMdef, hsub, MemPool.New]
    rw [← blankNode, hrun]
    simp [spanCount, latticeNodes, List.range_eq_range']
  · intro t c ht hc1
    unfold SquareMatrix.GetValue
    rw [if_pos ⟨by omega, by omega⟩, hc, hcells t c ht hc1]
    by_cases h : c < rowLen n M t
    · rw [if_pos ⟨Nat.zero_le _, h⟩, if_pos h]
    · rw [if_neg (fun h2 => h h2.2), if_neg h]
      have := cell_index_lt n M t c ht hc1
      simp [SquareMatrix.Init, List.getElem?_replicate, this]

/-! ## The lattice in closed form -/

theorem rowNodes_length (numPt n M base t : Nat) :
    (rowNodes numPt n M base t).length = rowLen n M t := by
  simp [rowNodes]

theorem flatMap_rows_length (numPt n M base : Nat) :
    ∀ k, ((List.range k).flatMap (rowNodes numPt n M base)).length = spanCount n M k := by
  intro k
  induction k with
  | zero => simp [spanCount]
  | succ k ih =>
    rw [List.range_succ, List.flatMap_append, List.length_append, ih]
    simp [rowNodes_length, spanCount]

theorem latticeNodes_length (numPt n M base : Nat) :
    (latticeNodes numPt n M base).length = spanCount n M n :=
  flatMap_rows_length numPt n M base n

theorem rowNodes_get (numPt n M base t c : Nat) (hc : c < rowLen n M t) :
    (rowNodes numPt n M base t)[c]? = some (specNode numPt (base + spanCount n M t) t (c + 1)) := by
  simp [rowNodes, List.getElem?_map, List.getElem?_range', hc, Nat.add_comm]

theorem flatMap_rows_get (numPt n M base t c : Nat) (hc : c < rowLen n M t) :
    ∀ k, t < k →
      ((List.range k).flatMap (rowNodes numPt n M base))[spanCount n M t + c]?
        = some (specNode numPt (base + spanCount n M t) t (c + 1)) := by
  intro k
  induction k with
  | zero => intro h; omega
  | succ k ih =>
    intro h
    rw [List.range_succ, List.flatMap_append]
    by_cases htk : t < k
    · have hmono := spanCount_mono n M (k - (t + 1)) (t + 1)
      rw [show t + 1 + (k - (t + 1)) = k by omega, spanCount] at hmono
      rw [List.getElem?_append_left (by rw [flatMap_rows_length]; omega)]
      exact ih htk
    · have htk2 : t = k := by omega
      subst htk2
      rw [List.getElem?_append_right (by rw [flatMap_rows_length]; omega), flatMap_rows_length]
      simp only [Nat.add_sub_cancel_left, List.flatMap_cons, List.flatMap_nil, List.append_nil]
      exact rowNodes_get numPt n M base t c hc

theorem latticeNodes_get (numPt n M base t c : Nat) (ht : t < n) (hc : c < rowLen n M t) :
    (latticeNodes numPt n M base)[spanCount n M t + c]?
      = some (specNode numPt (base + spanCount n M t) t (c + 1)) :=
  flatMap_rows_get numPt n M base t c hc n ht

theorem spanCount_decomp (n M : Nat) :
    ∀ k i, i < spanCount n M k →
      ∃ t c, t < k ∧ c < rowLen n M t ∧ i = spanCount n M t + c := by
  intro k
  induction k with
  | zero => intro i h; simp [spanCount] at h
  | succ k ih =>
    intro i h
    rw [spanCount] at h
    by_cases hi : i < spanCount n M k
    · obtain ⟨t, c, ht, hc, e⟩ := ih i hi
      exact ⟨t, c, by omega, hc, e⟩
    · exact ⟨k, i - spanCount n M k, by omega, by omega, by omega⟩

theorem spanCount_eq_sum (n M : Nat) :
    ∀ k, spanCount n M k = ∑ s in Finset.range k, min M (n - s) := by
  intro k
  induction k with
  | zero => simp [spanCount]
  | succ k ih => rw [Finset.sum_range_succ, spanCount, ih, rowLen]

/-- Reading the pool that `Init` leaves at the address of the node of the span
that starts at `t` and has length `c + 1`. -/
theorem pool_get_node (old : List InputPath) (numPt n M t c : Nat) (ht : t < n)
    (hc : c < rowLen n M t) :
    (old ++ blankNode numPt :: latticeNodes numPt n M (old.length + 1))[
        old.length + 1 + spanCount n M t + c]?
      = some (specNode numPt (old.length + 1 + spanCount n M t) t (c + 1)) := by
  rw [List.getElem?_append_right (by omega)]
  rw [show old.length + 1 + spanCount n M t + c - old.length = (spanCount n M t + c) + 1 by omega]
  rw [List.getElem?_cons_succ]
  exact latticeNodes_get numPt n M (old.length + 1) t c ht hc

theorem pool_get_blank (old rest : List InputPath) (b : InputPath) :
    (old ++ b :: rest)[old.length]? = some b := by
  rw [List.getElem?_append_right (Nat.le_refl _), Nat.sub_self, List.getElem?_cons_zero]

theorem specNode_range (numPt a0 s len : Nat) :
    (specNode numPt a0 s len).range = { m_startPos := s, m_endPos := s + len - 1 } := rfl

theorem specNode_prefixPath (numPt a0 s len : Nat) :
    (specNode numPt a0 s len).prefixPath = if len = 1 then none else some (a0 + len - 2) := rfl

theorem specNode_isUsed (numPt a0 s len : Nat) :
    (specNode numPt a0 s len).m_isUsed = false := rfl

/-! ## Claims about `InputPaths::Init` -/

/-- C1: for every sentence length `n` and every `maxPhraseLength`, with
`maxSpanLength = min n maxPhraseLength`, `Init` started from an empty flat
collection returns, and the flat collection it leaves has exactly
`Σ_{s < n} min maxSpanLength (n - s)` elements. -/
theorem C1_flat_collection_length (self : InputPaths) (fuel : Nat) (input : PhraseImpl)
    (mgr : Manager) (hn : input.GetSize < SIZE_MOD) (hfuel : input.GetSize < fuel)
    (hempty : self.m_inputPaths = []) :
    ∃ st, self.Init fuel input mgr = some st ∧
      st.1.m_inputPaths.length =
        ∑ s in Finset.range input.GetSize,
          min (min input.GetSize mgr.system.maxPhraseLength) (input.GetSize - s) := by
  obtain ⟨mat, hrun, -, -, -⟩ := Init_run self fuel input mgr hn hfuel
  refine ⟨_, hrun, ?_⟩
  simp only [hempty, List.nil_append, List.length_range']
  exact spanCount_eq_sum _ _ _

theorem C1_flat_collection_length_witness :
    (sentence3.GetSize < SIZE_MOD ∧ sentence3.GetSize < 4 ∧
      InputPaths.empty.m_inputPaths = []) ∧
    ∃ st, InputPaths.empty.Init 4 sentence3 manager2 = some st ∧
      st.1.m_inputPaths.length =
        ∑ s in Finset.range sentence3.GetSize,
          min (min sentence3.GetSize manager2.system.maxPhraseLength) (sentence3.GetSize - s) :=
  ⟨⟨by decide, by decide, rfl⟩,
    C1_flat_collection_length InputPaths.empty 4 sentence3 manager2 (by decide) (by decide) rfl⟩

/-- C2: after `Init`, for every start `s` and length `L` with
`1 ≤ L ≤ maxSpanLength` and `s + L - 1 < n`, index cell `(s, L - 1)` is populated
and holds a node whose `Range` is exactly `[s, s + L - 1]`: the early `break`
never skips a valid span. -/
theorem C2_valid_cells_populated (self : InputPaths) (fuel : Nat) (input : PhraseImpl)
    (mgr : Manager) (hn : input.GetSize < SIZE_MOD) (hfuel : input.GetSize < fuel) :
    ∃ st mat, self.Init fuel input mgr = some st ∧ st.1.m_matrix = some mat ∧
      ∀ s L, 1 ≤ L → L ≤ min input.GetSize mgr.system.maxPhraseLength →
        s + L - 1 < input.GetSize →
        ∃ p node, mat.GetValue s (L - 1) = some (some p) ∧ st.2.deref p = some node ∧
          node.range = { m_startPos := s, m_endPos := s + L - 1 } := by
  obtain ⟨mat, hrun, -, -, hcells⟩ := Init_run self fuel input mgr hn hfuel
  refine ⟨_, mat, hrun, rfl, ?_⟩
  intro s L h1 h2 h3
  have hs : s < input.GetSize := by omega
  have hc : L - 1 < rowLen input.GetSize (min input.GetSize mgr.system.maxPhraseLength) s := by
    unfold rowLen
    omega
  refine ⟨_, _, ?_, pool_get_node mgr.pool.m_objects _ _ _ s (L - 1) hs hc, ?_⟩
  · rw [hcells s (L - 1) hs (by omega), if_pos hc]
  · rw [specNode_range]
    congr 1
    omega

theorem C2_valid_cells_populated_witness :
    (sentence3.GetSize < SIZE_MOD ∧ sentence3.GetSize < 4) ∧
    ∃ st mat, InputPaths.empty.Init 4 sentence3 manager2 = some st ∧
      st.1.m_matrix = some mat ∧
      ∀ s L, 1 ≤ L → L ≤ min sentence3.GetSize manager2.system.maxPhraseLength →
        s + L - 1 < sentence3.GetSize →
        ∃ p node, mat.GetValue s (L - 1) = some (some p) ∧ st.2.deref p = some node ∧
          node.range = { m_startPos := s, m_endPos := s + L - 1 } :=
  ⟨⟨by decide, by decide⟩,
    C2_valid_cells_populated InputPaths.empty 4 sentence3 manager2 (by decide) (by decide)⟩

/-- C3: after `Init` the index is an `n × maxSpanLength` table in which every cell
`(s, L - 1)` whose span would be invalid (`s + L - 1 ≥ n`) still reads as empty
(NULL), as in the freshly allocated table; a cell is non-empty if and only if
`s + L - 1 < n` and `L ≤ maxSpanLength`. -/
theorem C3_invalid_cells_empty (self : InputPaths) (fuel : Nat) (input : PhraseImpl)
    (mgr : Manager) (hn : input.GetSize < SIZE_MOD) (hfuel : input.GetSize < fuel) :
    ∃ st mat, self.Init fuel input mgr = some st ∧ st.1.m_matrix = some mat ∧
      mat.m_rows = input.GetSize ∧
      mat.m_cols = min input.GetSize mgr.system.maxPhraseLength ∧
      (∀ s L, s < input.GetSize → 1 ≤ L →
        L ≤ min input.GetSize mgr.system.maxPhraseLength → input.GetSize ≤ s + L - 1 →
        mat.GetValue s (L - 1) = some none ∧
        mat.GetValue s (L - 1) =
          (SquareMatrix.Init input.GetSize (min input.GetSize mgr.system.maxPhraseLength)
            none).GetValue s (L - 1)) ∧
      (∀ s L, 1 ≤ L →
        ((∃ p, mat.GetValue s (L - 1) = some (some p)) ↔
          (s + L - 1 < input.GetSize ∧
            L ≤ min input.GetSize mgr.system.maxPhraseLength))) := by
  obtain ⟨mat, hrun, hr, hc, hcells⟩ := Init_run self fuel input mgr hn hfuel
  refine ⟨_, mat, hrun, rfl, hr, hc, ?_, ?_⟩
  · intro s L hs h1 h2 h3
    have hnc : ¬ (L - 1 < rowLen input.GetSize
        (min input.GetSize mgr.system.maxPhraseLength) s) := by
      unfold rowLen
      omega
    have hidx := cell_index_lt input.GetSize (min input.GetSize mgr.system.maxPhraseLength)
      s (L - 1) hs (by omega)
    refine ⟨by rw [hcells s (L - 1) hs (by omega), if_neg hnc], ?_⟩
    rw [hcells s (L - 1) hs (by omega), if_neg hnc]
    unfold SquareMatrix.GetValue SquareMatrix.Init
    simp only
    rw [if_pos ⟨hs, by omega⟩]
    simp [List.getElem?_replicate, hidx]
  · intro s L h1
    constructor
    · rintro ⟨p, hp⟩
      have hin : s < mat.m_rows ∧ L - 1 < mat.m_cols := by
        by_contra hcon
        unfold SquareMatrix.GetValue at hp
        rw [if_neg hcon] at hp
        exact Option.noConfusion hp
      rw [hr, hc] at hin
      rw [hcells s (L - 1) hin.1 hin.2] at hp
      by_cases hlt : L - 1 < rowLen input.GetSize
          (min input.GetSize mgr.system.maxPhraseLength) s
      · unfold rowLen at hlt
        omega
      · rw [if_neg hlt] at hp
        simp at hp
    · rintro ⟨h2, h3⟩
      have hlt : L - 1 < rowLen input.GetSize
          (min input.GetSize mgr.system.maxPhraseLength) s := by
        unfold rowLen
        omega
      exact ⟨_, by rw [hcells s (L - 1) (by omega) (by omega), if_pos hlt]⟩

theorem C3_invalid_cells_empty_witness :
    (sentence3.GetSize < SIZE_MOD ∧ sentence3.GetSize < 4) ∧
    ∃ st mat, InputPaths.empty.Init 4 sentence3 manager2 = some st ∧
      st.1.m_matrix = some mat ∧
      mat.m_rows = sentence3.GetSize ∧
      mat.m_cols = min sentence3.GetSize manager2.system.maxPhraseLength ∧
      (∀ s L, s < sentence3.GetSize → 1 ≤ L →
        L ≤ min sentence3.GetSize manager2.system.maxPhraseLength →
        sentence3.GetSize ≤ s + L - 1 →
        mat.GetValue s (L - 1) = some none ∧
        mat.GetValue s (L - 1) =
          (SquareMatrix.Init sentence3.GetSize
            (min sentence3.GetSize manager2.system.maxPhraseLength) none).GetValue s (L - 1)) ∧
      (∀ s L, 1 ≤ L →
        ((∃ p, mat.GetValue s (L - 1) = some (some p)) ↔
          (s + L - 1 < sentence3.GetSize ∧
            L ≤ min sentence3.GetSize manager2.system.maxPhraseLength))) :=
  ⟨⟨by decide, by decide⟩,
    C3_invalid_cells_empty InputPaths.empty 4 sentence3 manager2 (by decide) (by decide)⟩

/-- C4: every node built by `Init` (every object the call places in the pool) has
a null prefix reference when its length `end - start + 1` is 1, and when its length
is greater than 1 a non-null prefix reference to the node whose `Range` is
`[start, end - 1]`. -/
theorem C4_prefix_reference (self : InputPaths) (fuel : Nat) (input : PhraseImpl)
    (mgr : Manager) (hn : input.GetSize < SIZE_MOD) (hfuel : input.GetSize < fuel) :
    ∃ st, self.Init fuel input mgr = some st ∧
      ∀ p, mgr.pool.m_objects.length ≤ p → p < st.2.m_objects.length →
        ∃ node, st.2.deref p = some node ∧
          (1 < node.range.m_endPos - node.range.m_startPos + 1 →
            ∃ q pre, node.prefixPath = some q ∧ st.2.deref q = some pre ∧
              pre.range = { m_startPos := node.range.m_startPos,
                            m_endPos := node.range.m_endPos - 1 }) ∧
          (node.range.m_endPos - node.range.m_startPos + 1 = 1 →
            node.prefixPath = none) := by
  obtain ⟨mat, hrun, -, -, -⟩ := Init_run self fuel input mgr hn hfuel
  refine ⟨_, hrun, ?_⟩
  intro p hp1 hp2
  simp only [List.length_append, List.length_cons, latticeNodes_length] at hp2
  by_cases hb : p = mgr.pool.m_objects.length
  · subst hb
    refine ⟨blankNode mgr.system.mappings, pool_get_blank _ _ _, ?_, ?_⟩
    · intro h
      simp [blankNode, InputPath.new] at h
    · intro _
      rfl
  · obtain ⟨t, c, ht, hc, hi⟩ := spanCount_decomp input.GetSize
      (min input.GetSize mgr.system.maxPhraseLength) input.GetSize
      (p - mgr.pool.m_objects.length - 1) (by omega)
    have hp : p = mgr.pool.m_objects.length + 1 +
        spanCount input.GetSize (min input.GetSize mgr.system.maxPhraseLength) t + c := by
      omega
    subst hp
    refine ⟨_, pool_get_node mgr.pool.m_objects _ _ _ t c ht hc, ?_, ?_⟩
    · intro h
      rw [specNode_range] at h
      simp only at h
      have hc1 : 1 ≤ c := by omega
      refine ⟨_, _, ?_, pool_get_node mgr.pool.m_objects _ _ _ t (c - 1) ht (by omega), ?_⟩
      · rw [specNode_prefixPath, if_neg (by omega)]
        congr 1
        omega
      · rw [specNode_range, specNode_range]
        simp only [Range.mk.injEq, true_and]
        omega
    · intro h
      rw [specNode_range] at h
      simp only at h
      rw [specNode_prefixPath, if_pos (by omega)]

theorem C4_prefix_reference_witness :
    (sentence3.GetSize < SIZE_MOD ∧ sentence3.GetSize < 4) ∧
    ∃ st, InputPaths.empty.Init 4 sentence3 manager2 = some st ∧
      ∀ p, manager2.pool.m_objects.length ≤ p → p < st.2.m_objects.length →
        ∃ node, st.2.deref p = some node ∧
          (1 < node.range.m_endPos - node.range.m_startPos + 1 →
            ∃ q pre, node.prefixPath = some q ∧ st.2.deref q = some pre ∧
              pre.range = { m_startPos := node.range.m_startPos,
                            m_endPos := node.range.m_endPos - 1 }) ∧
          (node.range.m_endPos - node.range.m_startPos + 1 = 1 →
            node.prefixPath = none) :=
  ⟨⟨by decide, by decide⟩,
    C4_prefix_reference InputPaths.empty 4 sentence3 manager2 (by decide) (by decide)⟩

theorem latticeNodes_ranges (numPt n M base : Nat) :
    (latticeNodes numPt n M base).map InputPath.range = validSpans n M := by
  unfold latticeNodes validSpans
  rw [List.map_flatMap]
  congr 1
  funext s
  unfold rowNodes
  rw [List.map_map, List.range'_eq_map_range, List.map_map]
  apply List.map_congr_left
  intro k _
  simp only [Function.comp, specNode_range, rowLen]
  congr 1
  omega

theorem mem_validSpans (n M : Nat) (r : Range) :
    r ∈ validSpans n M ↔
      r.m_startPos ≤ r.m_endPos ∧ r.m_endPos - r.m_startPos + 1 ≤ M ∧ r.m_endPos < n := by
  unfold validSpans
  simp only [List.mem_flatMap, List.mem_range, List.mem_map]
  constructor
  · rintro ⟨s, hs, k, hk, rfl⟩
    simp only
    omega
  · rintro ⟨h1, h2, h3⟩
    refine ⟨r.m_startPos, by omega, r.m_endPos - r.m_startPos, by omega, ?_⟩
    cases r
    simp only [Range.mk.injEq, true_and] at *
    omega

theorem validSpans_nodup (n M : Nat) : (validSpans n M).Nodup := by
  unfold validSpans
  rw [List.nodup_flatMap]
  constructor
  · intro s _
    refine List.Nodup.map ?_ (List.nodup_range _)
    intro a b h
    simp only [Range.mk.injEq, true_and] at h
    omega
  · refine List.Pairwise.imp ?_ (List.pairwise_lt_range n)
    intro a b hab
    simp only [Function.onFun]
    intro r h1 h2
    simp only [List.mem_map, List.mem_range] at h1 h2
    obtain ⟨k1, -, rfl⟩ := h1
    obtain ⟨k2, -, h⟩ := h2
    simp only [Range.mk.injEq] at h
    omega

/-- The ranges read through the pointers `Init` appends to the flat collection. -/
theorem new_pointers_ranges (old : List InputPath) (numPt n M : Nat) :
    (List.range' (old.length + 1) (spanCount n M n)).map
        (MemPool.rangeAt
          { m_objects := old ++ blankNode numPt :: latticeNodes numPt n M (old.length + 1) })
      = (validSpans n M).map some := by
  rw [← latticeNodes_ranges numPt n M (old.length + 1)]
  apply List.ext_getElem?
  intro i
  simp only [List.getElem?_map]
  by_cases hi : i < spanCount n M n
  · have hi2 : i < (latticeNodes numPt n M (old.length + 1)).length := by
      rw [latticeNodes_length]; exact hi
    rw [List.getElem?_range' _ _ hi]
    simp only [Option.map_some', Nat.one_mul, MemPool.rangeAt, MemPool.deref]
    rw [List.getElem?_append_right (by omega)]
    rw [show old.length + 1 + i - old.length = i + 1 by omega, List.getElem?_cons_succ]
    rw [List.getElem?_eq_getElem hi2]
    simp
  · have hi2 : (latticeNodes numPt n M (old.length + 1)).length ≤ i := by
      rw [latticeNodes_length]; omega
    rw [List.getElem?_eq_none hi2, List.getElem?_eq_none (by simpa using Nat.le_of_not_lt hi)]
    simp

theorem countP_eq_of_nodup (l : List Range) (h : l.Nodup) (x : Range) :
    l.countP (fun y => decide (y = x)) = if x ∈ l then 1 else 0 := by
  induction l with
  | nil => simp
  | cons a l ih =>
    rw [List.nodup_cons] at h
    rw [List.countP_cons, ih h.2]
    by_cases hax : a = x
    · subst hax
      simp [h.1]
    · have hxa : ¬ x = a := fun e => hax e.symm
      simp [hax, hxa]

/-- C6: after `Init` from an empty flat collection, the sequence of `Range`s of
`m_inputPaths` is exactly the enumeration of the valid spans with start position
ascending and, within one start, span length ascending. -/
theorem C6_construction_order (self : InputPaths) (fuel : Nat) (input : PhraseImpl)
    (mgr : Manager) (hn : input.GetSize < SIZE_MOD) (hfuel : input.GetSize < fuel)
    (hempty : self.m_inputPaths = []) :
    ∃ st, self.Init fuel input mgr = some st ∧
      st.1.m_inputPaths.map st.2.rangeAt =
        (validSpans input.GetSize (min input.GetSize mgr.system.maxPhraseLength)).map some := by
  obtain ⟨mat, hrun, -, -, -⟩ := Init_run self fuel input mgr hn hfuel
  refine ⟨_, hrun, ?_⟩
  simp only [hempty, List.nil_append]
  exact new_pointers_ranges _ _ _ _

theorem C6_construction_order_witness :
    (sentence3.GetSize < SIZE_MOD ∧ sentence3.GetSize < 4 ∧
      InputPaths.empty.m_inputPaths = []) ∧
    ∃ st, InputPaths.empty.Init 4 sentence3 manager2 = some st ∧
      st.1.m_inputPaths.map st.2.rangeAt =
        (validSpans sentence3.GetSize
          (min sentence3.GetSize manager2.system.maxPhraseLength)).map some :=
  ⟨⟨by decide, by decide, rfl⟩,
    C6_construction_order InputPaths.empty 4 sentence3 manager2 (by decide) (by decide) rfl⟩

/-- The valid spans of a sentence of three tokens with maximum span length 2. -/
theorem validSpans_three_two :
    validSpans 3 2 = [⟨0, 0⟩, ⟨0, 1⟩, ⟨1, 1⟩, ⟨1, 2⟩, ⟨2, 2⟩] := by decide

/-- C7: after `Init` from an empty flat collection every element of
`m_inputPaths` is a node, and for every pair `(a, b)` the number of nodes of
`m_inputPaths` with `Range` `[a, b]` is one when `a ≤ b`,
`b - a + 1 ≤ maxSpanLength` and `b < n`, and zero otherwise. -/
theorem C7_one_node_per_valid_span (self : InputPaths) (fuel : Nat) (input : PhraseImpl)
    (mgr : Manager) (hn : input.GetSize < SIZE_MOD) (hfuel : input.GetSize < fuel)
    (hempty : self.m_inputPaths = []) :
    ∃ st, self.Init fuel input mgr = some st ∧
      (∀ p ∈ st.1.m_inputPaths, ∃ node, st.2.deref p = some node) ∧
      ∀ a b : Nat,
        st.1.m_inputPaths.countP
            (fun p => decide (st.2.rangeAt p = some { m_startPos := a, m_endPos := b }))
          = if a ≤ b ∧ b - a + 1 ≤ min input.GetSize mgr.system.maxPhraseLength ∧
              b < input.GetSize then 1 else 0 := by
  obtain ⟨mat, hrun, -, -, -⟩ := Init_run self fuel input mgr hn hfuel
  refine ⟨_, hrun, ?_, ?_⟩
  · intro (p : Nat) hp
    simp only [hempty, List.nil_append, List.mem_range'_1] at hp
    have hp1 : mgr.pool.m_objects.length + 1 ≤ p := hp.1
    have hp3 : p < mgr.pool.m_objects.length + 1 +
        spanCount input.GetSize (min input.GetSize mgr.system.maxPhraseLength) input.GetSize :=
      hp.2
    obtain ⟨t, c, ht, hc, hi⟩ := spanCount_decomp input.GetSize
      (min input.GetSize mgr.system.maxPhraseLength) input.GetSize
      (p - mgr.pool.m_objects.length - 1) (by omega)
    have hp2 : p = mgr.pool.m_objects.length + 1 +
        spanCount input.GetSize (min input.GetSize mgr.system.maxPhraseLength) t + c := by
      omega
    subst hp2
    exact ⟨_, pool_get_node mgr.pool.m_objects _ _ _ t c ht hc⟩
  · intro a b
    simp only [hempty, List.nil_append]
    have hmap := new_pointers_ranges mgr.pool.m_objects mgr.system.mappings input.GetSize
      (min input.GetSize mgr.system.maxPhraseLength)
    have hcount : ∀ (l : List Ptr) (f : Ptr → Option Range) (x : Option Range),
        l.countP (fun p => decide (f p = x)) = (l.map f).countP (fun y => decide (y = x)) := by
      intro l f x
      rw [List.countP_map]
      rfl
    rw [hcount, hmap, List.countP_map]
    have hfun : ((fun y : Option Range => decide (y = some { m_startPos := a, m_endPos := b }))
        ∘ some) = fun y : Range => decide (y = { m_startPos := a, m_endPos := b }) := by
      funext y
      simp
    rw [hfun, countP_eq_of_nodup _ (validSpans_nodup _ _)]
    simp only [mem_validSpans]

theorem C7_one_node_per_valid_span_witness :
    (sentence3.GetSize < SIZE_MOD ∧ sentence3.GetSize < 4 ∧
      InputPaths.empty.m_inputPaths = []) ∧
    ∃ st, InputPaths.empty.Init 4 sentence3 manager2 = some st ∧
      (∀ p ∈ st.1.m_inputPaths, ∃ node, st.2.deref p = some node) ∧
      ∀ a b : Nat,
        st.1.m_inputPaths.countP
            (fun p => decide (st.2.rangeAt p = some { m_startPos := a, m_endPos := b }))
          = if a ≤ b ∧ b - a + 1 ≤ min sentence3.GetSize manager2.system.maxPhraseLength ∧
              b < sentence3.GetSize then 1 else 0 :=
  ⟨⟨by decide, by decide, rfl⟩,
    C7_one_node_per_valid_span InputPaths.empty 4 sentence3 manager2 (by decide) (by decide)
      rfl⟩

/-! ## Claims about `InputPaths::DeleteUnusedPaths` -/

theorem deleteLoop_run (pool : MemPool) :
    ∀ (rest kept : List Ptr) (fuel : Nat), rest.length < fuel →
      (kept ++ rest).length < SIZE_MOD →
      (∀ p ∈ rest, p < pool.m_objects.length) →
      InputPaths.deleteLoop pool fuel kept.length (kept ++ rest)
        = some (kept ++ rest.filter pool.usedAt) := by
  intro rest
  induction rest with
  | nil =>
    intro kept fuel hf _ _
    obtain ⟨fuel, rfl⟩ : ∃ k, fuel = k + 1 := ⟨fuel - 1, by simp at hf; omega⟩
    rw [InputPaths.deleteLoop, if_neg (by simp)]
    simp
  | cons x xs ih =>
    intro kept fuel hf hlen hvalid
    obtain ⟨fuel, rfl⟩ : ∃ k, fuel = k + 1 := ⟨fuel - 1, by omega⟩
    have hx : x < pool.m_objects.length := hvalid x (List.mem_cons_self _ _)
    have hget : (kept ++ x :: xs)[kept.length]? = some x := by
      rw [List.getElem?_append_right (Nat.le_refl _), Nat.sub_self, List.getElem?_cons_zero]
    have hderef : pool.deref x = some (pool.m_objects[x]) := by
      unfold MemPool.deref
      exact List.getElem?_eq_getElem hx
    have hused : pool.usedAt x = (pool.m_objects[x]).IsUsed := by
      unfold MemPool.usedAt
      rw [hderef]
    simp only [List.length_append, List.length_cons] at hlen hf
    rw [InputPaths.deleteLoop, if_pos (by simp), hget]
    simp only [hderef]
    by_cases hu : (pool.m_objects[x]).IsUsed = true
    · have hnext : sizeAdd kept.length 1 = (kept ++ [x]).length := by
        simp only [sizeAdd, SIZE_MOD_eq, List.length_append, List.length_singleton] at *
        omega
      have hsplit : kept ++ x :: xs = (kept ++ [x]) ++ xs := by simp
      rw [if_neg (by simp [hu]), hnext, hsplit,
        ih (kept ++ [x]) fuel (by omega) (by simp; omega)
          (fun p hp => hvalid p (List.mem_cons_of_mem _ hp))]
      simp [List.filter_cons, hused, hu]
    · have herase : (kept ++ x :: xs).eraseIdx kept.length = kept ++ xs := by
        rw [List.eraseIdx_append_of_length_le (Nat.le_refl _), Nat.sub_self]
        rfl
      rw [if_pos (by simp [hu]), herase,
        ih kept fuel (by omega) (by simp; omega)
          (fun p hp => hvalid p (List.mem_cons_of_mem _ hp))]
      simp [List.filter_cons, hused, hu]

theorem DeleteUnusedPaths_run (self : InputPaths) (fuel : Nat) (pool : MemPool)
    (hfuel : self.m_inputPaths.length < fuel) (hlen : self.m_inputPaths.length < SIZE_MOD)
    (hvalid : ∀ p ∈ self.m_inputPaths, p < pool.m_objects.length) :
    self.DeleteUnusedPaths fuel pool
      = some ({ self with m_inputPaths := self.m_inputPaths.filter pool.usedAt }, pool) := by
  have h := deleteLoop_run pool self.m_inputPaths [] fuel hfuel (by simpa using hlen) hvalid
  simp only [List.length_nil, List.nil_append] at h
  unfold InputPaths.DeleteUnusedPaths
  rw [h]

/-- C5: `DeleteUnusedPaths` is a stable filter. For every flat collection (of
pointers to nodes of the pool) the call returns, and the resulting `m_inputPaths`
is the original sequence restricted to the nodes whose `IsUsed()` is true, in the
same relative order. -/
theorem C5_delete_is_stable_filter (self : InputPaths) (fuel : Nat) (pool : MemPool)
    (hfuel : self.m_inputPaths.length < fuel) (hlen : self.m_inputPaths.length < SIZE_MOD)
    (hvalid : ∀ p ∈ self.m_inputPaths, p < pool.m_objects.length) :
    ∃ st, self.DeleteUnusedPaths fuel pool = some st ∧
      st.1.m_inputPaths = self.m_inputPaths.filter pool.usedAt ∧
      st.1.m_inputPaths.Sublist self.m_inputPaths :=
  ⟨_, DeleteUnusedPaths_run self fuel pool hfuel hlen hvalid, rfl, List.filter_sublist _⟩

theorem C5_delete_is_stable_filter_witness :
    (prunable.m_inputPaths.length < 5 ∧ prunable.m_inputPaths.length < SIZE_MOD ∧
      ∀ p ∈ prunable.m_inputPaths, p < poolUsed13.m_objects.length) ∧
    ∃ st, prunable.DeleteUnusedPaths 5 poolUsed13 = some st ∧
      st.1.m_inputPaths = prunable.m_inputPaths.filter poolUsed13.usedAt ∧
      st.1.m_inputPaths.Sublist prunable.m_inputPaths :=
  ⟨⟨by decide, by decide, by decide⟩,
    C5_delete_is_stable_filter prunable 5 poolUsed13 (by decide) (by decide) (by decide)⟩

/-- Pruning the flat collection `[0, 1, 2, 3]` over a pool in which the nodes 1 and
3 are used leaves `[1, 3]`. -/
theorem DeleteUnusedPaths_prunable : prunable.DeleteUnusedPaths 5 poolUsed13
    = some ({ prunable with m_inputPaths := [1, 3] }, poolUsed13) := by decide


/-- C8: `DeleteUnusedPaths` changes only the flat collection. The call returns
with the index `m_matrix` (hence every cell of it), the sentinel `m_blank`, and the
pool (hence the `Range`, the prefix reference and the used flag of every node)
identical to what they were before the call. -/
theorem C8_delete_frame (self : InputPaths) (fuel : Nat) (pool : MemPool)
    (hfuel : self.m_inputPaths.length < fuel) (hlen : self.m_inputPaths.length < SIZE_MOD)
    (hvalid : ∀ p ∈ self.m_inputPaths, p < pool.m_objects.length) :
    ∃ st, self.DeleteUnusedPaths fuel pool = some st ∧
      st.1.m_matrix = self.m_matrix ∧ st.1.m_blank = self.m_blank ∧ st.2 = pool ∧
      (∀ mat r c, self.m_matrix = some mat →
        ∃ mat1, st.1.m_matrix = some mat1 ∧ mat1.GetValue r c = mat.GetValue r c) ∧
      (∀ p, st.2.deref p = pool.deref p) :=
  ⟨_, DeleteUnusedPaths_run self fuel pool hfuel hlen hvalid, rfl, rfl, rfl,
    fun mat _ _ h => ⟨mat, h, rfl⟩, fun _ => rfl⟩

theorem C8_delete_frame_witness :
    (prunable.m_inputPaths.length < 5 ∧ prunable.m_inputPaths.length < SIZE_MOD ∧
      ∀ p ∈ prunable.m_inputPaths, p < poolUsed13.m_objects.length) ∧
    ∃ st, prunable.DeleteUnusedPaths 5 poolUsed13 = some st ∧
      st.1.m_matrix = prunable.m_matrix ∧ st.1.m_blank = prunable.m_blank ∧
      st.2 = poolUsed13 ∧
      (∀ mat r c, prunable.m_matrix = some mat →
        ∃ mat1, st.1.m_matrix = some mat1 ∧ mat1.GetValue r c = mat.GetValue r c) ∧
      (∀ p, st.2.deref p = poolUsed13.deref p) :=
  ⟨⟨by decide, by decide, by decide⟩,
    C8_delete_frame prunable 5 poolUsed13 (by decide) (by decide) (by decide)⟩

/-! ## Index-reachability -/

theorem SetUsed_deref (pool : MemPool) (q p : Ptr) (node : InputPath)
    (h : pool.deref p = some node) :
    ∃ node1, (pool.SetUsed q).deref p = some node1 ∧ node1.range = node.range := by
  unfold MemPool.SetUsed
  cases hq : pool.deref q with
  | none => exact ⟨node, h, rfl⟩
  | some nq =>
    simp only [MemPool.deref] at *
    by_cases hqp : q = p
    · subst hqp
      have hlt : q < pool.m_objects.length := by
        by_contra hcon
        rw [List.getElem?_eq_none (Nat.le_of_not_lt hcon)] at h
        exact Option.noConfusion h
      rw [h] at hq
      cases hq
      exact ⟨{ node with m_isUsed := true }, by rw [List.getElem?_set_self hlt], rfl⟩
    · exact ⟨node, by rw [List.getElem?_set_ne hqp]; exact h, rfl⟩

theorem markAll_deref (ps : List Ptr) :
    ∀ (pool : MemPool) (p : Ptr) (node : InputPath), pool.deref p = some node →
      ∃ node1, (pool.markAll ps).deref p = some node1 ∧ node1.range = node.range := by
  induction ps with
  | nil => intro pool p node h; exact ⟨node, h, rfl⟩
  | cons q qs ih =>
    intro pool p node h
    obtain ⟨n1, h1, e1⟩ := SetUsed_deref pool q p node h
    obtain ⟨n2, h2, e2⟩ := ih (pool.SetUsed q) p n1 h1
    exact ⟨n2, h2, e2.trans e1⟩

theorem deref_lt (pool : MemPool) (p : Ptr) (node : InputPath) (h : pool.deref p = some node) :
    p < pool.m_objects.length := by
  by_contra hcon
  unfold MemPool.deref at h
  rw [List.getElem?_eq_none (Nat.le_of_not_lt hcon)] at h
  exact Option.noConfusion h

theorem IndexReachable_markAll (st : InputPaths × MemPool) (ps : List Ptr)
    (h : InputPaths.IndexReachable st) :
    InputPaths.IndexReachable (st.1, st.2.markAll ps) := by
  obtain ⟨mat, hm, hall⟩ := h
  refine ⟨mat, hm, ?_⟩
  intro p hp
  obtain ⟨node, hd, hcell⟩ := hall p hp
  obtain ⟨node1, hd1, e1⟩ := markAll_deref ps st.2 p node hd
  exact ⟨node1, hd1, by rw [e1]; exact hcell⟩

theorem pruneRounds_run (fuel : Nat) :
    ∀ (rounds : List (List Ptr)) (st : InputPaths × MemPool),
      InputPaths.IndexReachable st → st.1.m_inputPaths.length < fuel →
      st.1.m_inputPaths.length < SIZE_MOD →
      ∃ st1, InputPaths.pruneRounds fuel rounds st = some st1 ∧
        InputPaths.IndexReachable st1 ∧ st1.1.m_inputPaths.Sublist st.1.m_inputPaths ∧
        st1.1.m_matrix = st.1.m_matrix := by
  intro rounds
  induction rounds with
  | nil =>
    intro st h _ _
    exact ⟨st, rfl, h, List.Sublist.refl _, rfl⟩
  | cons marks rest ih =>
    intro st h hf hl
    have hmarked := IndexReachable_markAll st marks h
    obtain ⟨mat, hm, hall⟩ := hmarked
    have hvalid : ∀ p ∈ st.1.m_inputPaths, p < (st.2.markAll marks).m_objects.length := by
      intro p hp
      obtain ⟨node, hd, -⟩ := hall p hp
      exact deref_lt _ p node hd
    have hdel := DeleteUnusedPaths_run st.1 fuel (st.2.markAll marks) hf hl hvalid
    have hsub : (st.1.m_inputPaths.filter (st.2.markAll marks).usedAt).Sublist
        st.1.m_inputPaths := List.filter_sublist _
    have hinv : InputPaths.IndexReachable
        ({ st.1 with m_inputPaths := st.1.m_inputPaths.filter (st.2.markAll marks).usedAt },
          st.2.markAll marks) :=
      ⟨mat, hm, fun p hp => hall p (hsub.subset hp)⟩
    obtain ⟨st1, hrun, hinv1, hsub1, hmat1⟩ := ih _ hinv
      (by have := hsub.length_le; simp only at this ⊢; omega)
      (by have := hsub.length_le; simp only at this ⊢; omega)
    refine ⟨st1, ?_, hinv1, hsub1.trans hsub, hmat1⟩
    rw [InputPaths.pruneRounds, hdel]
    exact hrun

theorem spanCount_le (n M : Nat) : ∀ k, spanCount n M k ≤ k * M := by
  intro k
  induction k with
  | zero => simp [spanCount]
  | succ k ih =>
    rw [spanCount, Nat.succ_mul]
    unfold rowLen
    omega

theorem Init_IndexReachable (self : InputPaths) (fuel : Nat) (input : PhraseImpl)
    (mgr : Manager) (hn : input.GetSize < SIZE_MOD) (hfuel : input.GetSize < fuel)
    (hempty : self.m_inputPaths = []) :
    ∃ st, self.Init fuel input mgr = some st ∧ InputPaths.IndexReachable st ∧
      st.1.m_inputPaths.length ≤
        input.GetSize * min input.GetSize mgr.system.maxPhraseLength := by
  obtain ⟨mat, hrun, hr, hc, hcells⟩ := Init_run self fuel input mgr hn hfuel
  refine ⟨_, hrun, ⟨mat, rfl, ?_⟩, ?_⟩
  · intro (p : Nat) hp
    simp only [hempty, List.nil_append, List.mem_range'_1] at hp
    have hp1 : mgr.pool.m_objects.length + 1 ≤ p := hp.1
    have hp3 : p < mgr.pool.m_objects.length + 1 +
        spanCount input.GetSize (min input.GetSize mgr.system.maxPhraseLength) input.GetSize :=
      hp.2
    obtain ⟨t, c, ht, hc1, hi⟩ := spanCount_decomp input.GetSize
      (min input.GetSize mgr.system.maxPhraseLength) input.GetSize
      (p - mgr.pool.m_objects.length - 1) (by omega)
    have hp2 : p = mgr.pool.m_objects.length + 1 +
        spanCount input.GetSize (min input.GetSize mgr.system.maxPhraseLength) t + c := by
      omega
    subst hp2
    refine ⟨_, pool_get_node mgr.pool.m_objects _ _ _ t c ht hc1, ?_⟩
    rw [specNode_range]
    simp only
    rw [show t + (c + 1) - 1 - t = c by omega]
    have hcM : c < min input.GetSize mgr.system.maxPhraseLength := by
      unfold rowLen at hc1
      omega
    rw [hcells t c ht hcM, if_pos hc1]
  · simp only [hempty, List.nil_append, List.length_range']
    exact spanCount_le _ _ _

/-- C9 (as stated, without a condition on the flat collection `Init` starts from)
fails: a second `Init` on the same object keeps the node of the first run in
`m_inputPaths`, while index cell `(0, 0)` now holds the node of the second run. -/
theorem C9_counterexample_second_Init :
    ∃ st st2, InputPaths.empty.Init 2 sentence1 manager2 = some st ∧
      st.1.Init 2 sentence1 { manager2 with pool := st.2 } = some st2 ∧
      ¬ InputPaths.IndexReachable st2 := by
  refine ⟨({ m_inputPaths := [1], m_blank := some 0,
             m_matrix := some { m_rows := 1, m_cols := 1, m_array := [some 1] } },
           { m_objects := [blankNode 1, specNode 1 1 0 1] }),
          ({ m_inputPaths := [1, 3], m_blank := some 2,
             m_matrix := some { m_rows := 1, m_cols := 1, m_array := [some 3] } },
           { m_objects := [blankNode 1, specNode 1 1 0 1, blankNode 1, specNode 1 3 0 1] }),
          by decide, by decide, ?_⟩
  rintro ⟨mat, hm, hall⟩
  simp only [Option.some.injEq] at hm
  subst hm
  obtain ⟨node, hd, hcell⟩ := hall 1 (by decide)
  have hnode : node = specNode 1 1 0 1 := by
    simp only [MemPool.deref] at hd
    exact (Option.some.inj hd).symm
  subst hnode
  revert hcell
  decide

/-- C9 (amended): index-reachability is an invariant of the flat collection when
`Init` starts from an empty flat collection. `Init` then returns a state in which
every node `p` of `m_inputPaths` with `Range` `[s, e]` is the node stored at index
cell `(s, e - s)`; any number of later rounds, each marking some nodes used and
then calling `DeleteUnusedPaths`, return as well, and in the resulting state every
node remaining in `m_inputPaths` is still the node stored at its index cell. -/
theorem C9_index_reachability (self : InputPaths) (fuel fuel2 : Nat) (input : PhraseImpl)
    (mgr : Manager) (rounds : List (List Ptr))
    (hn : input.GetSize < SIZE_MOD) (hfuel : input.GetSize < fuel)
    (hempty : self.m_inputPaths = [])
    (hcells : input.GetSize * min input.GetSize mgr.system.maxPhraseLength < SIZE_MOD)
    (hfuel2 : input.GetSize * min input.GetSize mgr.system.maxPhraseLength < fuel2) :
    ∃ st, self.Init fuel input mgr = some st ∧ InputPaths.IndexReachable st ∧
      ∃ st1, InputPaths.pruneRounds fuel2 rounds st = some st1 ∧
        InputPaths.IndexReachable st1 ∧ st1.1.m_matrix = st.1.m_matrix := by
  obtain ⟨st, hrun, hinv, hlen⟩ := Init_IndexReachable self fuel input mgr hn hfuel hempty
  obtain ⟨st1, hrun1, hinv1, -, hmat⟩ := pruneRounds_run fuel2 rounds st hinv
    (by omega) (by omega)
  exact ⟨st, hrun, hinv, st1, hrun1, hinv1, hmat⟩

theorem C9_index_reachability_witness :
    (sentence3.GetSize < SIZE_MOD ∧ sentence3.GetSize < 4 ∧
      InputPaths.empty.m_inputPaths = [] ∧
      sentence3.GetSize * min sentence3.GetSize manager2.system.maxPhraseLength < SIZE_MOD ∧
      sentence3.GetSize * min sentence3.GetSize manager2.system.maxPhraseLength < 7) ∧
    ∃ st, InputPaths.empty.Init 4 sentence3 manager2 = some st ∧
      InputPaths.IndexReachable st ∧
      ∃ st1, InputPaths.pruneRounds 7 [[2, 4], [2]] st = some st1 ∧
        InputPaths.IndexReachable st1 ∧ st1.1.m_matrix = st.1.m_matrix :=
  ⟨⟨by decide, by decide, rfl, by decide, by decide⟩,
    C9_index_reachability InputPaths.empty 4 7 sentence3 manager2 [[2, 4], [2]]
      (by decide) (by decide) rfl (by decide) (by decide)⟩

/-- Two rounds of pruning after `Init` on the three-token sentence: the nodes 2 and
4 are marked in the first round and stay in the flat collection. -/
theorem pruneRounds_sentence3 :
    ((InputPaths.empty.Init 4 sentence3 manager2).bind
      (InputPaths.pruneRounds 7 [[2, 4], [2]])).map (fun st => st.1.m_inputPaths)
    = some [2, 4] := by decide

/-! ## The sentinel -/

theorem NOT_FOUND_eq : NOT_FOUND = 18446744073709551615 := by decide

/-- A populated cell of the index `Init` builds holds the address of the node of
the span the cell stands for. -/
theorem populated_cell_inv (mat : SquareMatrix) (n M base : Nat)
    (hr : mat.m_rows = n) (hc : mat.m_cols = M)
    (hcells : ∀ t c, t < n → c < M →
      mat.GetValue t c =
        some (if c < rowLen n M t then some (base + spanCount n M t + c) else none))
    (r c : Nat) (p : Ptr) (h : mat.GetValue r c = some (some p)) :
    r < n ∧ c < rowLen n M r ∧ p = base + spanCount n M r + c := by
  have hin : r < mat.m_rows ∧ c < mat.m_cols := by
    by_contra hcon
    unfold SquareMatrix.GetValue at h
    rw [if_neg hcon] at h
    exact Option.noConfusion h
  rw [hr, hc] at hin
  rw [hcells r c hin.1 hin.2] at h
  by_cases hlt : c < rowLen n M r
  · rw [if_pos hlt] at h
    simp only [Option.some.injEq] at h
    exact ⟨hin.1, hlt, h.symm⟩
  · rw [if_neg hlt] at h
    simp at h

theorem pool_get_old (old rest : List InputPath) (p : Nat) (node : InputPath)
    (h : old[p]? = some node) : (old ++ rest)[p]? = some node := by
  have hlt : p < old.length := by
    by_contra hcon
    rw [List.getElem?_eq_none (Nat.le_of_not_lt hcon)] at h
    exact Option.noConfusion h
  rw [List.getElem?_append_left hlt]
  exact h

/-- C10: after `Init` the sentinel `m_blank` has the undefined `Range`
`(NOT_FOUND, NOT_FOUND)` and a null prefix reference; it is not an element of
`m_inputPaths` nor the content of any index cell, and no node of `m_inputPaths` and
no node held by an index cell carries the undefined `Range`. The flat collection
`Init` starts from holds pointers to nodes of the pool with a defined `Range` (it
is empty for a new object). -/
theorem C10_sentinel (self : InputPaths) (fuel : Nat) (input : PhraseImpl) (mgr : Manager)
    (hn : input.GetSize < SIZE_MOD) (hfuel : input.GetSize < fuel)
    (hold : ∀ p ∈ self.m_inputPaths, ∃ node, mgr.pool.deref p = some node ∧
      node.range ≠ Range.undefined) :
    ∃ st b blank, self.Init fuel input mgr = some st ∧
      st.1.m_blank = some b ∧ st.2.deref b = some blank ∧
      blank.range = Range.undefined ∧ blank.prefixPath = none ∧
      b ∉ st.1.m_inputPaths ∧
      (∀ mat r c, st.1.m_matrix = some mat → mat.GetValue r c ≠ some (some b)) ∧
      (∀ p ∈ st.1.m_inputPaths, ∃ node, st.2.deref p = some node ∧
        node.range ≠ Range.undefined) ∧
      (∀ mat r c p, st.1.m_matrix = some mat → mat.GetValue r c = some (some p) →
        ∃ node, st.2.deref p = some node ∧ node.range ≠ Range.undefined) := by
  obtain ⟨mat, hrun, hr, hc, hcells⟩ := Init_run self fuel input mgr hn hfuel
  have hcells2 : ∀ t c, t < input.GetSize →
      c < min input.GetSize mgr.system.maxPhraseLength →
      mat.GetValue t c =
        some (if c < rowLen input.GetSize (min input.GetSize mgr.system.maxPhraseLength) t
          then some (mgr.pool.m_objects.length + 1 +
            spanCount input.GetSize (min input.GetSize mgr.system.maxPhraseLength) t + c)
          else none) := hcells
  have hdefined : ∀ t c, t < input.GetSize →
      (specNode mgr.system.mappings
        (mgr.pool.m_objects.length + 1 +
          spanCount input.GetSize (min input.GetSize mgr.system.maxPhraseLength) t)
        t (c + 1)).range ≠ Range.undefined := by
    intro t c ht h
    rw [specNode_range] at h
    simp only [Range.undefined, Range.mk.injEq, NOT_FOUND_eq] at h
    simp only [SIZE_MOD_eq] at hn
    omega
  refine ⟨_, mgr.pool.m_objects.length, blankNode mgr.system.mappings, hrun, rfl,
    pool_get_blank _ _ _, rfl, rfl, ?_, ?_, ?_, ?_⟩
  · intro hmem
    simp only [List.mem_append, List.mem_range'_1] at hmem
    rcases hmem with h | h
    · obtain ⟨node, hd, -⟩ := hold _ h
      exact Nat.lt_irrefl _ (deref_lt _ _ node hd)
    · omega
  · intro mat1 r c hm h
    simp only [Option.some.injEq] at hm
    subst hm
    have h2 : (mgr.pool.m_objects.length : Nat) = mgr.pool.m_objects.length + 1 +
        spanCount input.GetSize (min input.GetSize mgr.system.maxPhraseLength) r + c :=
      (populated_cell_inv mat _ _ _ hr hc hcells2 r c _ h).2.2
    omega
  · intro (p : Nat) hp
    simp only [List.mem_append, List.mem_range'_1] at hp
    rcases hp with h | h
    · obtain ⟨node, hd, hne⟩ := hold _ h
      exact ⟨node, pool_get_old _ _ p node hd, hne⟩
    · have hp1 : mgr.pool.m_objects.length + 1 ≤ p := h.1
      have hp3 : p < mgr.pool.m_objects.length + 1 +
          spanCount input.GetSize (min input.GetSize mgr.system.maxPhraseLength)
            input.GetSize := h.2
      obtain ⟨t, c, ht, hc1, hi⟩ := spanCount_decomp input.GetSize
        (min input.GetSize mgr.system.maxPhraseLength) input.GetSize
        (p - mgr.pool.m_objects.length - 1) (by omega)
      have hp2 : p = mgr.pool.m_objects.length + 1 +
          spanCount input.GetSize (min input.GetSize mgr.system.maxPhraseLength) t + c := by
        omega
      subst hp2
      exact ⟨_, pool_get_node mgr.pool.m_objects _ _ _ t c ht hc1, hdefined t c ht⟩
  · intro mat1 r c p hm h
    simp only [Option.some.injEq] at hm
    subst hm
    obtain ⟨hr1, hc1, hp⟩ := populated_cell_inv mat _ _ _ hr hc hcells2 r c p h
    subst hp
    exact ⟨_, pool_get_node mgr.pool.m_objects _ _ _ r c hr1 hc1, hdefined r c hr1⟩

theorem C10_sentinel_witness :
    (sentence3.GetSize < SIZE_MOD ∧ sentence3.GetSize < 4 ∧
      ∀ p ∈ InputPaths.empty.m_inputPaths, ∃ node, manager2.pool.deref p = some node ∧
        node.range ≠ Range.undefined) ∧
    ∃ st b blank, InputPaths.empty.Init 4 sentence3 manager2 = some st ∧
      st.1.m_blank = some b ∧ st.2.deref b = some blank ∧
      blank.range = Range.undefined ∧ blank.prefixPath = none ∧
      b ∉ st.1.m_inputPaths ∧
      (∀ mat r c, st.1.m_matrix = some mat → mat.GetValue r c ≠ some (some b)) ∧
      (∀ p ∈ st.1.m_inputPaths, ∃ node, st.2.deref p = some node ∧
        node.range ≠ Range.undefined) ∧
      (∀ mat r c p, st.1.m_matrix = some mat → mat.GetValue r c = some (some p) →
        ∃ node, st.2.deref p = some node ∧ node.range ≠ Range.undefined) :=
  ⟨⟨by decide, by decide, fun p hp => absurd hp (List.not_mem_nil p)⟩,
    C10_sentinel InputPaths.empty 4 sentence3 manager2 (by decide) (by decide)
      (fun p hp => absurd hp (List.not_mem_nil p))⟩

/-- The state `Init` returns for the three-token sentence with
`maxPhraseLength = 2`, one translation table and an empty pool. -/
theorem Init_sentence3 :
    InputPaths.empty.Init 4 sentence3 manager2
      = some ({ m_inputPaths := [1, 2, 3, 4, 5], m_blank := some 0,
                m_matrix := some ⟨3, 2, [some 1, some 2, some 3, some 4, some 5, none]⟩ },
              ⟨[blankNode 1, specNode 1 1 0 1, specNode 1 1 0 2, specNode 1 3 1 1,
                specNode 1 3 1 2, specNode 1 5 2 1]⟩) := by decide

/-! ## Pruning when all or none of the nodes are used -/

/-- C11: `DeleteUnusedPaths` on a flat collection (of pointers to nodes of the
pool) returns; when every node of the collection has `used = false` the resulting
flat collection is empty, and when every node has `used = true` it is the original
sequence, unchanged and in the same order. -/
theorem C11_delete_all_or_nothing (self : InputPaths) (fuel : Nat) (pool : MemPool)
    (hfuel : self.m_inputPaths.length < fuel) (hlen : self.m_inputPaths.length < SIZE_MOD)
    (hvalid : ∀ p ∈ self.m_inputPaths, p < pool.m_objects.length) :
    ∃ st, self.DeleteUnusedPaths fuel pool = some st ∧
      ((∀ p ∈ self.m_inputPaths, ∀ node, pool.deref p = some node → node.IsUsed = false) →
        st.1.m_inputPaths = []) ∧
      ((∀ p ∈ self.m_inputPaths, ∀ node, pool.deref p = some node → node.IsUsed = true) →
        st.1.m_inputPaths = self.m_inputPaths) := by
  refine ⟨_, DeleteUnusedPaths_run self fuel pool hfuel hlen hvalid, ?_, ?_⟩
  · intro h
    simp only [List.filter_eq_nil_iff]
    intro p hp
    have hlt := hvalid p hp
    have hd : pool.deref p = some (pool.m_objects[p]) := List.getElem?_eq_getElem hlt
    have := h p hp _ hd
    simp [MemPool.usedAt, hd, this]
  · intro h
    simp only [List.filter_eq_self]
    intro p hp
    have hlt := hvalid p hp
    have hd : pool.deref p = some (pool.m_objects[p]) := List.getElem?_eq_getElem hlt
    have := h p hp _ hd
    simp [MemPool.usedAt, hd, this]

theorem C11_delete_all_or_nothing_witness :
    ((twoPaths.m_inputPaths.length < 3 ∧ twoPaths.m_inputPaths.length < SIZE_MOD ∧
        (∀ p ∈ twoPaths.m_inputPaths, p < poolNoneUsed.m_objects.length) ∧
        (∀ p ∈ twoPaths.m_inputPaths, ∀ node, poolNoneUsed.deref p = some node →
          node.IsUsed = false)) ∧
      ∃ st, twoPaths.DeleteUnusedPaths 3 poolNoneUsed = some st ∧ st.1.m_inputPaths = []) ∧
    ((twoPaths.m_inputPaths.length < 3 ∧ twoPaths.m_inputPaths.length < SIZE_MOD ∧
        (∀ p ∈ twoPaths.m_inputPaths, p < poolAllUsed.m_objects.length) ∧
        (∀ p ∈ twoPaths.m_inputPaths, ∀ node, poolAllUsed.deref p = some node →
          node.IsUsed = true)) ∧
      ∃ st, twoPaths.DeleteUnusedPaths 3 poolAllUsed = some st ∧
        st.1.m_inputPaths = twoPaths.m_inputPaths) := by
  have h1 : ∀ p ∈ twoPaths.m_inputPaths, ∀ node, poolNoneUsed.deref p = some node →
      node.IsUsed = false := by decide
  have h2 : ∀ p ∈ twoPaths.m_inputPaths, ∀ node, poolAllUsed.deref p = some node →
      node.IsUsed = true := by decide
  obtain ⟨st1, r1, e1, -⟩ := C11_delete_all_or_nothing twoPaths 3 poolNoneUsed
    (by decide) (by decide) (by decide)
  obtain ⟨st2, r2, -, e2⟩ := C11_delete_all_or_nothing twoPaths 3 poolAllUsed
    (by decide) (by decide) (by decide)
  exact ⟨⟨⟨by decide, by decide, by decide, h1⟩, st1, r1, e1 h1⟩,
    ⟨⟨by decide, by decide, by decide, h2⟩, st2, r2, e2 h2⟩⟩

/-! ## Building twice -/

/-- The ranges read through the whole flat collection after `Init`: those of the
pointers it held before, then the valid spans in construction order. -/
theorem Init_flat_ranges (self : InputPaths) (fuel : Nat) (input : PhraseImpl)
    (mgr : Manager) (hn : input.GetSize < SIZE_MOD) (hfuel : input.GetSize < fuel)
    (hvalid : ∀ p ∈ self.m_inputPaths, p < mgr.pool.m_objects.length) :
    ∃ st, self.Init fuel input mgr = some st ∧
      st.1.m_inputPaths.map st.2.rangeAt =
        self.m_inputPaths.map mgr.pool.rangeAt ++
          (validSpans input.GetSize (min input.GetSize mgr.system.maxPhraseLength)).map some := by
  obtain ⟨mat, hrun, -, -, -⟩ := Init_run self fuel input mgr hn hfuel
  refine ⟨_, hrun, ?_⟩
  simp only [List.map_append]
  rw [new_pointers_ranges]
  congr 1
  apply List.map_congr_left
  intro p hp
  have hlt := hvalid p hp
  simp only [MemPool.rangeAt, MemPool.deref]
  rw [List.getElem?_append_left hlt]

/-- The range found through each cell of the index `Init` builds: an outer `none`
outside the table, `some none` for an empty cell, and the span the cell stands for
when it is populated. -/
theorem Init_cell_ranges (self : InputPaths) (fuel : Nat) (input : PhraseImpl)
    (mgr : Manager) (hn : input.GetSize < SIZE_MOD) (hfuel : input.GetSize < fuel) :
    ∃ st mat, self.Init fuel input mgr = some st ∧ st.1.m_matrix = some mat ∧
      mat.m_rows = input.GetSize ∧
      mat.m_cols = min input.GetSize mgr.system.maxPhraseLength ∧
      ∀ r c, (mat.GetValue r c).map (fun cell => cell.bind st.2.rangeAt) =
        if r < input.GetSize ∧ c < min input.GetSize mgr.system.maxPhraseLength then
          some (if r + c < input.GetSize then some { m_startPos := r, m_endPos := r + c }
            else none)
        else none := by
  obtain ⟨mat, hrun, hr, hc, hcells⟩ := Init_run self fuel input mgr hn hfuel
  refine ⟨_, mat, hrun, rfl, hr, hc, ?_⟩
  intro r c
  by_cases hin : r < input.GetSize ∧ c < min input.GetSize mgr.system.maxPhraseLength
  · rw [if_pos hin, hcells r c hin.1 hin.2]
    by_cases hlt : r + c < input.GetSize
    · have hrl : c < rowLen input.GetSize (min input.GetSize mgr.system.maxPhraseLength) r := by
        unfold rowLen
        omega
      rw [if_pos hrl, if_pos hlt]
      simp only [Option.map_some', Option.some_bind, MemPool.rangeAt, MemPool.deref]
      rw [pool_get_node mgr.pool.m_objects _ _ _ r c hin.1 hrl]
      simp only [Option.map_some', specNode_range, Option.some.injEq, Range.mk.injEq, true_and]
      omega
    · have hrl : ¬ c < rowLen input.GetSize
          (min input.GetSize mgr.system.maxPhraseLength) r := by
        unfold rowLen
        omega
      rw [if_neg hrl, if_neg hlt]
      rfl
  · rw [if_neg hin]
    unfold SquareMatrix.GetValue
    rw [if_neg (by rw [hr, hc]; exact hin)]
    rfl

/-- C12 (as stated, with only the sentence, `maxPhraseLength` and the number of
translation tables identical) fails: built a second time on the same object, the
flat collection holds the `Range` `[0, 0]` twice, while after the first build it
holds it once. -/
theorem C12_counterexample_same_object :
    ∃ st1 st2, InputPaths.empty.Init 2 sentence1 manager2 = some st1 ∧
      st1.1.Init 2 sentence1 { manager2 with pool := st1.2 } = some st2 ∧
      st1.1.m_inputPaths.map st1.2.rangeAt ≠ st2.1.m_inputPaths.map st2.2.rangeAt := by
  refine ⟨({ m_inputPaths := [1], m_blank := some 0,
             m_matrix := some { m_rows := 1, m_cols := 1, m_array := [some 1] } },
           { m_objects := [blankNode 1, specNode 1 1 0 1] }),
          ({ m_inputPaths := [1, 3], m_blank := some 2,
             m_matrix := some { m_rows := 1, m_cols := 1, m_array := [some 3] } },
           { m_objects := [blankNode 1, specNode 1 1 0 1, blankNode 1, specNode 1 3 0 1] }),
          by decide, by decide, by decide⟩

/-- C12 (amended): two runs of `Init` on sentences of the same length with the
same configuration, started from flat collections that hold the same `Range`
sequence (both empty for new objects) and over pools that may differ, both return;
the resulting flat collections have identical `Range` sequences, the two indexes
have the same dimensions, and every cell is populated in one exactly when it is
populated in the other, with the same `Range`. -/
theorem C12_build_twice (self1 self2 : InputPaths) (fuel1 fuel2 : Nat)
    (input1 input2 : PhraseImpl) (mgr1 mgr2 : Manager)
    (hsize : input1.GetSize = input2.GetSize) (hcfg : mgr1.system = mgr2.system)
    (hn : input1.GetSize < SIZE_MOD)
    (hfuel1 : input1.GetSize < fuel1) (hfuel2 : input2.GetSize < fuel2)
    (hvalid1 : ∀ p ∈ self1.m_inputPaths, p < mgr1.pool.m_objects.length)
    (hvalid2 : ∀ p ∈ self2.m_inputPaths, p < mgr2.pool.m_objects.length)
    (hflat : self1.m_inputPaths.map mgr1.pool.rangeAt
      = self2.m_inputPaths.map mgr2.pool.rangeAt) :
    ∃ st1 st2 mat1 mat2,
      self1.Init fuel1 input1 mgr1 = some st1 ∧ self2.Init fuel2 input2 mgr2 = some st2 ∧
      st1.1.m_inputPaths.map st1.2.rangeAt = st2.1.m_inputPaths.map st2.2.rangeAt ∧
      st1.1.m_matrix = some mat1 ∧ st2.1.m_matrix = some mat2 ∧
      mat1.m_rows = mat2.m_rows ∧ mat1.m_cols = mat2.m_cols ∧
      ∀ r c, (mat1.GetValue r c).map (fun cell => cell.bind st1.2.rangeAt)
        = (mat2.GetValue r c).map (fun cell => cell.bind st2.2.rangeAt) := by
  have hn2 : input2.GetSize < SIZE_MOD := hsize ▸ hn
  obtain ⟨st1, hrun1, hflat1⟩ := Init_flat_ranges self1 fuel1 input1 mgr1 hn hfuel1 hvalid1
  obtain ⟨st2, hrun2, hflat2⟩ := Init_flat_ranges self2 fuel2 input2 mgr2 hn2 hfuel2 hvalid2
  obtain ⟨st1a, mat1, hrun1a, hm1, hr1, hc1, hcell1⟩ :=
    Init_cell_ranges self1 fuel1 input1 mgr1 hn hfuel1
  obtain ⟨st2a, mat2, hrun2a, hm2, hr2, hc2, hcell2⟩ :=
    Init_cell_ranges self2 fuel2 input2 mgr2 hn2 hfuel2
  rw [hrun1] at hrun1a
  rw [hrun2] at hrun2a
  cases hrun1a
  cases hrun2a
  refine ⟨st1, st2, mat1, mat2, hrun1, hrun2, ?_, hm1, hm2, ?_, ?_, ?_⟩
  · rw [hflat1, hflat2, hflat, hsize, hcfg]
  · rw [hr1, hr2, hsize]
  · rw [hc1, hc2, hsize, hcfg]
  · intro r c
    rw [hcell1, hcell2, hsize, hcfg]

theorem C12_build_twice_witness :
    (sentence3.GetSize = sentence3.GetSize ∧ manager2.system = manager2.system ∧
      sentence3.GetSize < SIZE_MOD ∧ sentence3.GetSize < 4 ∧ sentence3.GetSize < 5 ∧
      (∀ p ∈ InputPaths.empty.m_inputPaths, p < manager2.pool.m_objects.length) ∧
      (∀ p ∈ InputPaths.empty.m_inputPaths,
        p < ({ manager2 with pool := poolUsed13 } : Manager).pool.m_objects.length) ∧
      InputPaths.empty.m_inputPaths.map manager2.pool.rangeAt
        = InputPaths.empty.m_inputPaths.map
            ({ manager2 with pool := poolUsed13 } : Manager).pool.rangeAt) ∧
    ∃ st1 st2 mat1 mat2,
      InputPaths.empty.Init 4 sentence3 manager2 = some st1 ∧
      InputPaths.empty.Init 5 sentence3 { manager2 with pool := poolUsed13 } = some st2 ∧
      st1.1.m_inputPaths.map st1.2.rangeAt = st2.1.m_inputPaths.map st2.2.rangeAt ∧
      st1.1.m_matrix = some mat1 ∧ st2.1.m_matrix = some mat2 ∧
      mat1.m_rows = mat2.m_rows ∧ mat1.m_cols = mat2.m_cols ∧
      ∀ r c, (mat1.GetValue r c).map (fun cell => cell.bind st1.2.rangeAt)
        = (mat2.GetValue r c).map (fun cell => cell.bind st2.2.rangeAt) :=
  ⟨⟨rfl, rfl, by decide, by decide, by decide, by decide, by decide, rfl⟩,
    C12_build_twice InputPaths.empty InputPaths.empty 4 5 sentence3 sentence3 manager2
      { manager2 with pool := poolUsed13 } rfl rfl (by decide) (by decide) (by decide)
      (by decide) (by decide) rfl⟩

/-! ## Edge cases -/

theorem Init_empty_sentence (self : InputPaths) (fuel : Nat) (input : PhraseImpl)
    (mgr : Manager) (hsize : input.GetSize = 0) (hfuel : 0 < fuel) :
    self.Init fuel input mgr
      = some ({ m_inputPaths := self.m_inputPaths,
                m_blank := some mgr.pool.m_objects.length,
                m_matrix := some { m_rows := 0, m_cols := 0, m_array := [] } },
              { m_objects := mgr.pool.m_objects ++ [blankNode mgr.system.mappings] }) := by
  obtain ⟨fuel, rfl⟩ : ∃ k, fuel = k + 1 := ⟨fuel - 1, by omega⟩
  have hsub : input.GetSubPhrase NOT_FOUND NOT_FOUND
      = some { m_start := NOT_FOUND, m_end := NOT_FOUND } := by
    unfold PhraseImpl.GetSubPhrase
    rw [if_pos (Or.inl ⟨rfl, rfl⟩)]
  unfold InputPaths.Init
  simp only [hsize, hsub, MemPool.New, Nat.zero_min, InputPaths.outerLoop, Nat.lt_irrefl,
    if_false, SquareMatrix.Init, Nat.zero_mul, List.replicate_zero]
  rfl

/-- C13 (as stated, "leaves the flat collection empty") fails on an object whose
flat collection already holds a node: `Init` with the empty sentence returns and
the flat collection still holds that node. -/
theorem C13_counterexample_nonempty_object :
    ∃ st1 st2, InputPaths.empty.Init 2 sentence1 manager2 = some st1 ∧
      sentence0.GetSize = 0 ∧
      st1.1.Init 1 sentence0 { manager2 with pool := st1.2 } = some st2 ∧
      st2.1.m_inputPaths ≠ [] := by
  refine ⟨({ m_inputPaths := [1], m_blank := some 0,
             m_matrix := some { m_rows := 1, m_cols := 1, m_array := [some 1] } },
           { m_objects := [blankNode 1, specNode 1 1 0 1] }),
          ({ m_inputPaths := [1], m_blank := some 2,
             m_matrix := some { m_rows := 0, m_cols := 0, m_array := [] } },
           { m_objects := [blankNode 1, specNode 1 1 0 1, blankNode 1] }),
          by decide, by decide, by decide, by decide⟩

/-- C13 (amended): for sentence length 0 and any `maxPhraseLength`, `Init` returns
(no error); `maxSpanLength` is 0, the index is a `0 × 0` table with no cells, the
flat collection is left as it was (so it is empty when it was empty), and the
sentinel `m_blank` is constructed, the only object the call adds to the pool. -/
theorem C13_empty_sentence (self : InputPaths) (fuel : Nat) (input : PhraseImpl)
    (mgr : Manager) (hsize : input.GetSize = 0) (hfuel : 0 < fuel) :
    ∃ st mat b blank, self.Init fuel input mgr = some st ∧
      min input.GetSize mgr.system.maxPhraseLength = 0 ∧
      st.1.m_matrix = some mat ∧ mat.m_rows = 0 ∧ mat.m_cols = 0 ∧ mat.m_array = [] ∧
      (∀ r c, mat.GetValue r c = none) ∧
      st.1.m_inputPaths = self.m_inputPaths ∧
      (self.m_inputPaths = [] → st.1.m_inputPaths = []) ∧
      st.1.m_blank = some b ∧ st.2.deref b = some blank ∧
      blank.range = Range.undefined ∧ blank.prefixPath = none ∧
      st.2.m_objects = mgr.pool.m_objects ++ [blank] := by
  refine ⟨_, _, mgr.pool.m_objects.length, blankNode mgr.system.mappings,
    Init_empty_sentence self fuel input mgr hsize hfuel, by rw [hsize]; exact Nat.zero_min _,
    rfl, rfl, rfl, rfl, ?_, rfl, fun h => h, rfl, pool_get_blank _ _ _, rfl, rfl, rfl⟩
  intro r c
  unfold SquareMatrix.GetValue
  rw [if_neg (by simp)]

theorem C13_empty_sentence_witness :
    (sentence0.GetSize = 0 ∧ 0 < 1) ∧
    ∃ st mat b blank, InputPaths.empty.Init 1 sentence0 manager2 = some st ∧
      min sentence0.GetSize manager2.system.maxPhraseLength = 0 ∧
      st.1.m_matrix = some mat ∧ mat.m_rows = 0 ∧ mat.m_cols = 0 ∧ mat.m_array = [] ∧
      (∀ r c, mat.GetValue r c = none) ∧
      st.1.m_inputPaths = InputPaths.empty.m_inputPaths ∧
      (InputPaths.empty.m_inputPaths = [] → st.1.m_inputPaths = []) ∧
      st.1.m_blank = some b ∧ st.2.deref b = some blank ∧
      blank.range = Range.undefined ∧ blank.prefixPath = none ∧
      st.2.m_objects = manager2.pool.m_objects ++ [blank] :=
  ⟨⟨rfl, by decide⟩, C13_empty_sentence InputPaths.empty 1 sentence0 manager2 rfl (by decide)⟩

theorem spanCount_one (n : Nat) : ∀ k, k ≤ n → spanCount n 1 k = k := by
  intro k
  induction k with
  | zero => intro _; rfl
  | succ k ih =>
    intro h
    rw [spanCount, ih (by omega)]
    unfold rowLen
    omega

theorem flatMap_singleton_eq_map {α β : Type} (f : α → List β) (g : α → β) :
    ∀ l : List α, (∀ a ∈ l, f a = [g a]) → l.flatMap f = l.map g := by
  intro l
  induction l with
  | nil => intro _; rfl
  | cons a l ih =>
    intro h
    rw [List.flatMap_cons, List.map_cons, h a (List.mem_cons_self _ _),
      ih (fun b hb => h b (List.mem_cons_of_mem _ hb))]
    rfl

theorem validSpans_one (n : Nat) :
    validSpans n 1 = (List.range n).map fun s => { m_startPos := s, m_endPos := s } := by
  unfold validSpans
  apply flatMap_singleton_eq_map
  intro s hs
  rw [List.mem_range] at hs
  rw [show min 1 (n - s) = 1 by omega]
  rfl

/-- The flat collection after `Init`: what it held before, followed by the
addresses of the new nodes, which are consecutive pool slots after the sentinel. -/
theorem Init_appends (self : InputPaths) (fuel : Nat) (input : PhraseImpl)
    (mgr : Manager) (hn : input.GetSize < SIZE_MOD) (hfuel : input.GetSize < fuel) :
    ∃ st, self.Init fuel input mgr = some st ∧
      st.1.m_inputPaths = self.m_inputPaths ++
        List.range' (mgr.pool.m_objects.length + 1)
          (spanCount input.GetSize (min input.GetSize mgr.system.maxPhraseLength)
            input.GetSize) ∧
      st.1.m_blank = some mgr.pool.m_objects.length ∧
      st.2.m_objects = mgr.pool.m_objects ++ blankNode mgr.system.mappings ::
        latticeNodes mgr.system.mappings input.GetSize
          (min input.GetSize mgr.system.maxPhraseLength) (mgr.pool.m_objects.length + 1) := by
  obtain ⟨mat, hrun, -, -, -⟩ := Init_run self fuel input mgr hn hfuel
  exact ⟨_, hrun, rfl, rfl, rfl⟩

/-- C14: for every sentence length `n`, when `maxSpanLength = min n maxPhraseLength`
equals 1, `Init` builds exactly `n` nodes besides the sentinel, appended to the flat
collection in order; they are the spans `[s, s]` for `s = 0 .. n - 1`, and every one
of them has a null prefix reference. -/
theorem C14_max_span_one (self : InputPaths) (fuel : Nat) (input : PhraseImpl)
    (mgr : Manager) (hn : input.GetSize < SIZE_MOD) (hfuel : input.GetSize < fuel)
    (hM : min input.GetSize mgr.system.maxPhraseLength = 1) :
    ∃ st new, self.Init fuel input mgr = some st ∧
      st.1.m_inputPaths = self.m_inputPaths ++ new ∧
      new.length = input.GetSize ∧
      st.2.m_objects.length = mgr.pool.m_objects.length + 1 + input.GetSize ∧
      new.map st.2.rangeAt =
        (List.range input.GetSize).map (fun s => some { m_startPos := s, m_endPos := s }) ∧
      ∀ p ∈ new, ∃ node, st.2.deref p = some node ∧ node.prefixPath = none := by
  obtain ⟨st, hrun, hpaths, -, hpool⟩ := Init_appends self fuel input mgr hn hfuel
  rw [hM] at hpaths hpool
  rw [spanCount_one _ _ (Nat.le_refl _)] at hpaths
  refine ⟨st, _, hrun, hpaths, List.length_range' _ _ _, ?_, ?_, ?_⟩
  · rw [hpool]
    simp only [List.length_append, List.length_cons, latticeNodes_length]
    rw [spanCount_one _ _ (Nat.le_refl _)]
    omega
  · have h := new_pointers_ranges mgr.pool.m_objects mgr.system.mappings input.GetSize 1
    rw [spanCount_one _ _ (Nat.le_refl _), validSpans_one, List.map_map] at h
    have hst : st.2 = { m_objects := st.2.m_objects } := rfl
    rw [hst, hpool, h]
    rfl
  · intro (p : Nat) hp
    rw [List.mem_range'_1] at hp
    obtain ⟨t, c, ht, hc, hi⟩ := spanCount_decomp input.GetSize 1 input.GetSize
      (p - mgr.pool.m_objects.length - 1)
      (by rw [spanCount_one _ _ (Nat.le_refl _)]; omega)
    have hc0 : c = 0 := by
      unfold rowLen at hc
      omega
    subst hc0
    have hp2 : p = mgr.pool.m_objects.length + 1 + spanCount input.GetSize 1 t + 0 := by
      omega
    refine ⟨specNode mgr.system.mappings
      (mgr.pool.m_objects.length + 1 + spanCount input.GetSize 1 t) t (0 + 1), ?_, rfl⟩
    unfold MemPool.deref
    rw [hpool, hp2]
    exact pool_get_node mgr.pool.m_objects _ _ _ t 0 ht hc

theorem C14_max_span_one_witness :
    (sentence3.GetSize < SIZE_MOD ∧ sentence3.GetSize < 4 ∧
      min sentence3.GetSize managerOne.system.maxPhraseLength = 1) ∧
    ∃ st new, InputPaths.empty.Init 4 sentence3 managerOne = some st ∧
      st.1.m_inputPaths = InputPaths.empty.m_inputPaths ++ new ∧
      new.length = sentence3.GetSize ∧
      st.2.m_objects.length = managerOne.pool.m_objects.length + 1 + sentence3.GetSize ∧
      new.map st.2.rangeAt =
        (List.range sentence3.GetSize).map (fun s => some { m_startPos := s, m_endPos := s }) ∧
      ∀ p ∈ new, ∃ node, st.2.deref p = some node ∧ node.prefixPath = none :=
  ⟨⟨by decide, by decide, by decide⟩,
    C14_max_span_one InputPaths.empty 4 sentence3 managerOne (by decide) (by decide)
      (by decide)⟩

/-! ## The scenario of three tokens and maximum span length 2 -/

theorem spanCount_three_two :
    spanCount 3 2 0 = 0 ∧ spanCount 3 2 1 = 2 ∧ spanCount 3 2 2 = 4 ∧ spanCount 3 2 3 = 5 := by
  decide

/-- C15: for sentence length 3 and `maxPhraseLength` 2 (so `maxSpanLength = 2`)
`Init` builds exactly 5 nodes besides the sentinel, appended to the flat collection
with `Range`s `[0,0], [0,1], [1,1], [1,2], [2,2]` in that order; index cells
`(0,0), (0,1), (1,0), (1,1), (2,0)` hold the first to the fifth of them, and cell
`(2,1)` is empty. -/
theorem C15_three_tokens_span_two (self : InputPaths) (fuel : Nat) (input : PhraseImpl)
    (mgr : Manager) (hsize : input.GetSize = 3) (hmpl : mgr.system.maxPhraseLength = 2)
    (hfuel : 3 < fuel) :
    ∃ st mat n1 n2 n3 n4 n5, self.Init fuel input mgr = some st ∧
      min input.GetSize mgr.system.maxPhraseLength = 2 ∧
      st.1.m_inputPaths = self.m_inputPaths ++ [n1, n2, n3, n4, n5] ∧
      st.2.m_objects.length = mgr.pool.m_objects.length + 1 + 5 ∧
      [n1, n2, n3, n4, n5].map st.2.rangeAt =
        [some { m_startPos := 0, m_endPos := 0 }, some { m_startPos := 0, m_endPos := 1 },
         some { m_startPos := 1, m_endPos := 1 }, some { m_startPos := 1, m_endPos := 2 },
         some { m_startPos := 2, m_endPos := 2 }] ∧
      st.1.m_matrix = some mat ∧ mat.m_rows = 3 ∧ mat.m_cols = 2 ∧
      mat.GetValue 0 0 = some (some n1) ∧ mat.GetValue 0 1 = some (some n2) ∧
      mat.GetValue 1 0 = some (some n3) ∧ mat.GetValue 1 1 = some (some n4) ∧
      mat.GetValue 2 0 = some (some n5) ∧ mat.GetValue 2 1 = some none := by
  have hn : input.GetSize < SIZE_MOD := by rw [hsize]; decide
  obtain ⟨mat, hrun, hr, hc, hcells⟩ := Init_run self fuel input mgr hn (by omega)
  have hranges := new_pointers_ranges mgr.pool.m_objects mgr.system.mappings 3 2
  have hmin : min 3 2 = 2 := by decide
  simp only [hsize, hmpl, hmin] at hrun hr hc hcells
  obtain ⟨e0, e1, e2, e3⟩ := spanCount_three_two
  rw [e3] at hrun hranges
  rw [validSpans_three_two] at hranges
  refine ⟨_, mat, _, _, _, _, _, hrun, by rw [hsize, hmpl]; decide, rfl, ?_, hranges, rfl,
    hr, hc, ?_, ?_, ?_, ?_, ?_, ?_⟩
  · simp only [List.length_append, List.length_cons, latticeNodes_length, e3]
  · rw [hcells 0 0 (by decide) (by decide), e0]
    rfl
  · rw [hcells 0 1 (by decide) (by decide), e0]
    rfl
  · rw [hcells 1 0 (by decide) (by decide), e1]
    rfl
  · rw [hcells 1 1 (by decide) (by decide), e1]
    rfl
  · rw [hcells 2 0 (by decide) (by decide), e2]
    rfl
  · rw [hcells 2 1 (by decide) (by decide)]
    rfl

theorem C15_three_tokens_span_two_witness :
    (sentence3.GetSize = 3 ∧ manager2.system.maxPhraseLength = 2 ∧ 3 < 4) ∧
    ∃ st mat n1 n2 n3 n4 n5, InputPaths.empty.Init 4 sentence3 manager2 = some st ∧
      min sentence3.GetSize manager2.system.maxPhraseLength = 2 ∧
      st.1.m_inputPaths = InputPaths.empty.m_inputPaths ++ [n1, n2, n3, n4, n5] ∧
      st.2.m_objects.length = manager2.pool.m_objects.length + 1 + 5 ∧
      [n1, n2, n3, n4, n5].map st.2.rangeAt =
        [some { m_startPos := 0, m_endPos := 0 }, some { m_startPos := 0, m_endPos := 1 },
         some { m_startPos := 1, m_endPos := 1 }, some { m_startPos := 1, m_endPos := 2 },
         some { m_startPos := 2, m_endPos := 2 }] ∧
      st.1.m_matrix = some mat ∧ mat.m_rows = 3 ∧ mat.m_cols = 2 ∧
      mat.GetValue 0 0 = some (some n1) ∧ mat.GetValue 0 1 = some (some n2) ∧
      mat.GetValue 1 0 = some (some n3) ∧ mat.GetValue 1 1 = some (some n4) ∧
      mat.GetValue 2 0 = some (some n5) ∧ mat.GetValue 2 1 = some none :=
  ⟨⟨rfl, rfl, by decide⟩,
    C15_three_tokens_span_two InputPaths.empty 4 sentence3 manager2 rfl rfl (by decide)⟩

/-! ## Dependency order -/

/-- C16: dependency order in `Init`. For every node the call appends to
`m_inputPaths` (position `j` at or after the old length) whose prefix reference is
non-null, the prefix node is the element at the immediately preceding position
`j - 1`, itself appended by the call (so it was constructed before); it has the
same start and its length is one less. -/
theorem C16_dependency_order (self : InputPaths) (fuel : Nat) (input : PhraseImpl)
    (mgr : Manager) (hn : input.GetSize < SIZE_MOD) (hfuel : input.GetSize < fuel) :
    ∃ st, self.Init fuel input mgr = some st ∧
      ∀ (j : Nat) (p q : Ptr) (node : InputPath),
        self.m_inputPaths.length ≤ j → st.1.m_inputPaths[j]? = some p →
        st.2.deref p = some node → node.prefixPath = some q →
        self.m_inputPaths.length ≤ j - 1 ∧ j - 1 < j ∧
        st.1.m_inputPaths[j - 1]? = some q ∧ q < p ∧
        ∃ pre, st.2.deref q = some pre ∧
          pre.range.m_startPos = node.range.m_startPos ∧
          (pre.range.m_endPos - pre.range.m_startPos + 1) + 1
            = node.range.m_endPos - node.range.m_startPos + 1 := by
  obtain ⟨st, hrun, hpaths, -, hpool⟩ := Init_appends self fuel input mgr hn hfuel
  refine ⟨st, hrun, ?_⟩
  intro j (p : Nat) (q : Nat) node hj hget hd hpre
  obtain ⟨M, hM⟩ : ∃ M, min input.GetSize mgr.system.maxPhraseLength = M := ⟨_, rfl⟩
  rw [hM] at hpaths hpool
  rw [hpaths, List.getElem?_append_right hj] at hget
  have hi : j - self.m_inputPaths.length < spanCount input.GetSize M input.GetSize := by
    by_contra hcon
    rw [List.getElem?_eq_none (by simpa using Nat.le_of_not_lt hcon)] at hget
    exact Option.noConfusion hget
  rw [List.getElem?_range' _ _ hi] at hget
  have hp : p = mgr.pool.m_objects.length + 1 + (j - self.m_inputPaths.length) := by
    have := Option.some.inj hget
    omega
  obtain ⟨t, c, ht, hc, hidx⟩ := spanCount_decomp input.GetSize M input.GetSize
    (j - self.m_inputPaths.length) hi
  have hp2 : p = mgr.pool.m_objects.length + 1 + spanCount input.GetSize M t + c := by omega
  have hnode : st.2.deref p = some (specNode mgr.system.mappings
      (mgr.pool.m_objects.length + 1 + spanCount input.GetSize M t) t (c + 1)) := by
    unfold MemPool.deref
    rw [hpool, hp2]
    exact pool_get_node mgr.pool.m_objects _ _ _ t c ht hc
  rw [hd] at hnode
  have hnode2 := Option.some.inj hnode
  subst hnode2
  rw [specNode_prefixPath] at hpre
  have hc1 : 1 ≤ c := by
    by_contra hcon
    rw [if_pos (by omega)] at hpre
    exact Option.noConfusion hpre
  rw [if_neg (by omega)] at hpre
  have hq : q = mgr.pool.m_objects.length + 1 + spanCount input.GetSize M t + (c - 1) := by
    have := Option.some.inj hpre
    omega
  have hqp : @LT.lt Nat _ q p := by omega
  refine ⟨by omega, by omega, ?_, hqp, ?_⟩
  · rw [hpaths, List.getElem?_append_right (by omega),
      List.getElem?_range' _ _ (by omega)]
    congr 1
    omega
  · refine ⟨specNode mgr.system.mappings
      (mgr.pool.m_objects.length + 1 + spanCount input.GetSize M t) t (c - 1 + 1), ?_, ?_, ?_⟩
    · unfold MemPool.deref
      rw [hpool, hq]
      exact pool_get_node mgr.pool.m_objects _ _ _ t (c - 1) ht (by omega)
    · rfl
    · simp only [specNode_range]
      omega

theorem C16_dependency_order_witness :
    (sentence3.GetSize < SIZE_MOD ∧ sentence3.GetSize < 4) ∧
    ∃ st, InputPaths.empty.Init 4 sentence3 manager2 = some st ∧
      ∀ (j : Nat) (p q : Ptr) (node : InputPath),
        InputPaths.empty.m_inputPaths.length ≤ j → st.1.m_inputPaths[j]? = some p →
        st.2.deref p = some node → node.prefixPath = some q →
        InputPaths.empty.m_inputPaths.length ≤ j - 1 ∧ j - 1 < j ∧
        st.1.m_inputPaths[j - 1]? = some q ∧ q < p ∧
        ∃ pre, st.2.deref q = some pre ∧
          pre.range.m_startPos = node.range.m_startPos ∧
          (pre.range.m_endPos - pre.range.m_startPos + 1) + 1
            = node.range.m_endPos - node.range.m_startPos + 1 :=
  ⟨⟨by decide, by decide⟩,
    C16_dependency_order InputPaths.empty 4 sentence3 manager2 (by decide) (by decide)⟩

/-! ## `Init` does not clear the flat collection -/

theorem countP_range_eq (l : List Ptr) (pool : MemPool) (V W : List Range) (r : Range)
    (h : l.map pool.rangeAt = V.map some ++ W.map some) :
    l.countP (fun p => decide (pool.rangeAt p = some r))
      = V.countP (fun y => decide (y = r)) + W.countP (fun y => decide (y = r)) := by
  have h1 : l.countP (fun p => decide (pool.rangeAt p = some r))
      = (l.map pool.rangeAt).countP (fun y => decide (y = some r)) := by
    rw [List.countP_map]
    rfl
  have hfun : ((fun y : Option Range => decide (y = some r)) ∘ some)
      = fun y : Range => decide (y = r) := by
    funext y
    simp
  rw [h1, h, List.countP_append, List.countP_map, List.countP_map, hfun]

/-- C18: `Init` does not clear `m_inputPaths`. Run on an object whose flat
collection holds a sequence `P`, it returns with `P` followed by the newly built
nodes (pool slots that did not exist before the call); `m_blank` points to a newly
built sentinel and `m_matrix` is a new `n × maxSpanLength` table holding only newly
built nodes, both the same whatever the object held in these members before. A
second `Init` on the object a first `Init` initialised from an empty flat collection,
with the same sentence and configuration, returns with a flat collection that
contains each valid `Range` exactly twice. -/
theorem C18_init_appends (self : InputPaths) (fuel fuel2 : Nat) (input : PhraseImpl)
    (mgr : Manager) (hn : input.GetSize < SIZE_MOD) (hfuel : input.GetSize < fuel)
    (hfuel2 : input.GetSize < fuel2) :
    ∃ st new b blank mat, self.Init fuel input mgr = some st ∧
      st.1.m_inputPaths = self.m_inputPaths ++ new ∧
      (∀ p ∈ new, mgr.pool.deref p = none ∧ ∃ node, st.2.deref p = some node) ∧
      st.1.m_blank = some b ∧ mgr.pool.deref b = none ∧ st.2.deref b = some blank ∧
      st.1.m_matrix = some mat ∧ mat.m_rows = input.GetSize ∧
      mat.m_cols = min input.GetSize mgr.system.maxPhraseLength ∧
      (∀ r c p, mat.GetValue r c = some (some p) → p ∈ new) ∧
      (∀ other : InputPaths, other.m_inputPaths = self.m_inputPaths →
        other.Init fuel input mgr = some st) ∧
      (self.m_inputPaths = [] →
        ∃ st2, st.1.Init fuel2 input { mgr with pool := st.2 } = some st2 ∧
          ∀ x y : Nat,
            st2.1.m_inputPaths.countP
                (fun p => decide (st2.2.rangeAt p = some { m_startPos := x, m_endPos := y }))
              = if x ≤ y ∧ y - x + 1 ≤ min input.GetSize mgr.system.maxPhraseLength ∧
                  y < input.GetSize then 2 else 0) := by
  obtain ⟨mat, hrun, hr, hc, hcells⟩ := Init_run self fuel input mgr hn hfuel
  obtain ⟨M, hM⟩ : ∃ M, min input.GetSize mgr.system.maxPhraseLength = M := ⟨_, rfl⟩
  have hnewnode : ∀ p : Nat, p ∈ List.range' (mgr.pool.m_objects.length + 1)
      (spanCount input.GetSize M input.GetSize) →
      mgr.pool.m_objects.length + 1 ≤ p ∧
      ∃ node, (mgr.pool.m_objects ++ blankNode mgr.system.mappings ::
        latticeNodes mgr.system.mappings input.GetSize M (mgr.pool.m_objects.length + 1))[p]?
          = some node := by
    intro p hp
    rw [List.mem_range'_1] at hp
    obtain ⟨t, c, ht, hc1, hi⟩ := spanCount_decomp input.GetSize M input.GetSize
      (p - mgr.pool.m_objects.length - 1) (by omega)
    have hp2 : p = mgr.pool.m_objects.length + 1 + spanCount input.GetSize M t + c := by
      omega
    exact ⟨hp.1, _, hp2 ▸ pool_get_node mgr.pool.m_objects _ _ _ t c ht hc1⟩
  rw [hM] at hrun hc hcells
  refine ⟨_, _, mgr.pool.m_objects.length, blankNode mgr.system.mappings, mat, hrun, rfl,
    ?_, rfl, ?_, pool_get_blank _ _ _, rfl, hr, by rw [hM]; exact hc, ?_, ?_, ?_⟩
  · intro (p : Nat) hp
    obtain ⟨h1, node, h2⟩ := hnewnode p hp
    exact ⟨List.getElem?_eq_none (by omega), node, h2⟩
  · exact List.getElem?_eq_none (Nat.le_refl _)
  · intro r c (p : Nat) hcell
    obtain ⟨hr1, hc1, hp⟩ := populated_cell_inv mat _ _ _ hr hc hcells r c p hcell
    rw [List.mem_range'_1]
    have hlt := spanCount_mono input.GetSize M (input.GetSize - (r + 1)) (r + 1)
    rw [show r + 1 + (input.GetSize - (r + 1)) = input.GetSize by omega, spanCount] at hlt
    have hp1 : p = mgr.pool.m_objects.length + 1 + spanCount input.GetSize M r + c := hp
    omega
  · intro other hother
    rw [← hrun]
    unfold InputPaths.Init
    simp only [hother]
  · intro hempty
    obtain ⟨st, hst⟩ : ∃ st : InputPaths × MemPool, st =
        ({ m_inputPaths := self.m_inputPaths ++
              List.range' (mgr.pool.m_objects.length + 1)
                (spanCount input.GetSize M input.GetSize),
            m_blank := some mgr.pool.m_objects.length, m_matrix := some mat },
          { m_objects := mgr.pool.m_objects ++ blankNode mgr.system.mappings ::
              latticeNodes mgr.system.mappings input.GetSize M
                (mgr.pool.m_objects.length + 1) }) := ⟨_, rfl⟩
    rw [← hst]
    have hpaths : st.1.m_inputPaths = List.range' (mgr.pool.m_objects.length + 1)
        (spanCount input.GetSize M input.GetSize) := by
      rw [hst, hempty]
      rfl
    have hpool : st.2 = MemPool.mk (mgr.pool.m_objects ++
        blankNode mgr.system.mappings ::
          latticeNodes mgr.system.mappings input.GetSize M
            (mgr.pool.m_objects.length + 1)) := by
      rw [hst]
    have hvalid : ∀ p ∈ st.1.m_inputPaths,
        p < ({ mgr with pool := st.2 } : Manager).pool.m_objects.length := by
      intro (p : Nat) hp
      rw [hpaths, List.mem_range'_1] at hp
      rw [hpool]
      simp only [List.length_append, List.length_cons, latticeNodes_length]
      show @LT.lt Nat _ p _
      omega
    obtain ⟨st2, hrun2, hflat2⟩ := Init_flat_ranges st.1 fuel2 input
      { mgr with pool := st.2 } hn hfuel2 hvalid
    refine ⟨st2, hrun2, ?_⟩
    intro x y
    simp only [hM] at hflat2
    rw [hpaths, hpool, new_pointers_ranges] at hflat2
    rw [countP_range_eq _ _ _ _ _ hflat2, countP_eq_of_nodup _ (validSpans_nodup _ _)]
    simp only [mem_validSpans, hM]
    by_cases hv : x ≤ y ∧ y - x + 1 ≤ M ∧ y < input.GetSize
    · rw [if_pos hv, if_pos hv]
    · rw [if_neg hv, if_neg hv]

theorem C18_init_appends_witness :
    ((sentence3.GetSize < SIZE_MOD ∧ sentence3.GetSize < 4 ∧ sentence3.GetSize < 5) ∧
      ∃ st new b blank mat, prunable.Init 4 sentence3 { manager2 with pool := poolUsed13 }
          = some st ∧
        st.1.m_inputPaths = prunable.m_inputPaths ++ new ∧
        (∀ p ∈ new, poolUsed13.deref p = none ∧ ∃ node, st.2.deref p = some node) ∧
        st.1.m_blank = some b ∧ poolUsed13.deref b = none ∧ st.2.deref b = some blank ∧
        st.1.m_matrix = some mat ∧ mat.m_rows = sentence3.GetSize ∧
        mat.m_cols = min sentence3.GetSize manager2.system.maxPhraseLength ∧
        (∀ r c p, mat.GetValue r c = some (some p) → p ∈ new) ∧
        (∀ other : InputPaths, other.m_inputPaths = prunable.m_inputPaths →
          other.Init 4 sentence3 { manager2 with pool := poolUsed13 } = some st)) ∧
    ((sentence3.GetSize < SIZE_MOD ∧ sentence3.GetSize < 4 ∧ sentence3.GetSize < 5 ∧
        InputPaths.empty.m_inputPaths = []) ∧
      ∃ st st2, InputPaths.empty.Init 4 sentence3 manager2 = some st ∧
        st.1.Init 5 sentence3 { manager2 with pool := st.2 } = some st2 ∧
        ∀ x y : Nat,
          st2.1.m_inputPaths.countP
              (fun p => decide (st2.2.rangeAt p = some { m_startPos := x, m_endPos := y }))
            = if x ≤ y ∧ y - x + 1 ≤ min sentence3.GetSize manager2.system.maxPhraseLength ∧
                y < sentence3.GetSize then 2 else 0) := by
  obtain ⟨st, new, b, blank, mat, h1, h2, h3, h4, h5, h6, h7, h8, h9, h10, h11, -⟩ :=
    C18_init_appends prunable 4 5 sentence3 { manager2 with pool := poolUsed13 }
      (by decide) (by decide) (by decide)
  obtain ⟨st1, -, -, -, -, g1, -, -, -, -, -, -, -, -, -, -, g2⟩ :=
    C18_init_appends InputPaths.empty 4 5 sentence3 manager2
      (by decide) (by decide) (by decide)
  obtain ⟨st2, g3, g4⟩ := g2 rfl
  exact ⟨⟨⟨by decide, by decide, by decide⟩,
      st, new, b, blank, mat, h1, h2, h3, h4, h5, h6, h7, h8, h9, h10, h11⟩,
    ⟨⟨by decide, by decide, by decide, rfl⟩, st1, st2, g1, g3, g4⟩⟩

/-! ## Size of the lattice -/

theorem spanCount_closed (n M : Nat) (hM : M ≤ n) :
    ∀ k, k ≤ n →
      2 * spanCount n M k + (k + M - n - 1) * (k + M - n) = 2 * (k * M) := by
  intro k
  induction k with
  | zero =>
    intro _
    have h0 : 0 + M - n - 1 = 0 := by omega
    rw [h0]
    simp [spanCount]
  | succ k ih =>
    intro hk
    have ih1 := ih (by omega)
    rw [spanCount]
    rcases Nat.lt_or_ge n (k + M) with h | h
    · obtain ⟨e, he⟩ : ∃ e, k + M = n + e + 1 := ⟨k + M - n - 1, by omega⟩
      obtain ⟨f, hf⟩ : ∃ f, M = e + 1 + f := ⟨M - (e + 1), by omega⟩
      have a1 : k + M - n - 1 = e := by omega
      have a2 : k + M - n = e + 1 := by omega
      have a3 : k + 1 + M - n - 1 = e + 1 := by omega
      have a4 : k + 1 + M - n = e + 2 := by omega
      have a5 : rowLen n M k = f := by
        unfold rowLen
        omega
      rw [a1, a2] at ih1
      rw [a3, a4, a5]
      subst hf
      nlinarith
    · have a1 : k + M - n - 1 = 0 := by omega
      have a3 : k + 1 + M - n - 1 = 0 := by omega
      have a5 : rowLen n M k = M := by
        unfold rowLen
        omega
      rw [a1] at ih1
      rw [a3, a5]
      simp only [Nat.zero_mul, Nat.add_zero] at ih1 ⊢
      nlinarith

theorem spanCount_formula (n M : Nat) (hM : M ≤ n) :
    spanCount n M n = n * M - M * (M - 1) / 2 := by
  have h := spanCount_closed n M hM n (Nat.le_refl _)
  rw [show n + M - n - 1 = M - 1 by omega, show n + M - n = M by omega,
    Nat.mul_comm (M - 1) M] at h
  have heven : 2 * (M * (M - 1) / 2) = M * (M - 1) :=
    Nat.mul_div_cancel' (Nat.even_mul_pred_self M).two_dvd
  omega

/-- C20: closed form of the lattice size. For every `n` and `maxPhraseLength`, with
`M = min n maxPhraseLength`, the number of nodes `Init` appends to the flat
collection is `n * M - M * (M - 1) / 2` in natural-number arithmetic, which is at
most `n * M`, the number of cells of the index. -/
theorem C20_lattice_size (self : InputPaths) (fuel : Nat) (input : PhraseImpl)
    (mgr : Manager) (hn : input.GetSize < SIZE_MOD) (hfuel : input.GetSize < fuel) :
    ∃ st new mat, self.Init fuel input mgr = some st ∧
      st.1.m_inputPaths = self.m_inputPaths ++ new ∧
      new.length =
        input.GetSize * min input.GetSize mgr.system.maxPhraseLength -
          min input.GetSize mgr.system.maxPhraseLength *
            (min input.GetSize mgr.system.maxPhraseLength - 1) / 2 ∧
      new.length ≤ input.GetSize * min input.GetSize mgr.system.maxPhraseLength ∧
      st.1.m_matrix = some mat ∧
      mat.m_rows * mat.m_cols =
        input.GetSize * min input.GetSize mgr.system.maxPhraseLength := by
  obtain ⟨mat, hrun, hr, hc, -⟩ := Init_run self fuel input mgr hn hfuel
  refine ⟨_, _, mat, hrun, rfl, ?_, ?_, rfl, by rw [hr, hc]⟩
  · rw [List.length_range']
    exact spanCount_formula _ _ (Nat.min_le_left _ _)
  · rw [List.length_range']
    exact spanCount_le _ _ _

theorem C20_lattice_size_witness :
    (sentence3.GetSize < SIZE_MOD ∧ sentence3.GetSize < 4) ∧
    ∃ st new mat, InputPaths.empty.Init 4 sentence3 manager2 = some st ∧
      st.1.m_inputPaths = InputPaths.empty.m_inputPaths ++ new ∧
      new.length =
        sentence3.GetSize * min sentence3.GetSize manager2.system.maxPhraseLength -
          min sentence3.GetSize manager2.system.maxPhraseLength *
            (min sentence3.GetSize manager2.system.maxPhraseLength - 1) / 2 ∧
      new.length ≤ sentence3.GetSize * min sentence3.GetSize manager2.system.maxPhraseLength ∧
      st.1.m_matrix = some mat ∧
      mat.m_rows * mat.m_cols =
        sentence3.GetSize * min sentence3.GetSize manager2.system.maxPhraseLength :=
  ⟨⟨by decide, by decide⟩,
    C20_lattice_size InputPaths.empty 4 sentence3 manager2 (by decide) (by decide)⟩

/-! ## Termination of the pruning loop -/

theorem deleteLoop_short (pool : MemPool) :
    ∀ (rest kept : List Ptr) (fuel : Nat), fuel ≤ rest.length →
      (kept ++ rest).length < SIZE_MOD →
      (∀ p ∈ rest, p < pool.m_objects.length) →
      InputPaths.deleteLoop pool fuel kept.length (kept ++ rest) = none := by
  intro rest
  induction rest with
  | nil =>
    intro kept fuel hf _ _
    have h0 : fuel = 0 := by simpa using hf
    subst h0
    rfl
  | cons x xs ih =>
    intro kept fuel hf hlen hvalid
    cases fuel with
    | zero => rfl
    | succ fuel =>
      have hx : x < pool.m_objects.length := hvalid x (List.mem_cons_self _ _)
      have hget : (kept ++ x :: xs)[kept.length]? = some x := by
        rw [List.getElem?_append_right (Nat.le_refl _), Nat.sub_self, List.getElem?_cons_zero]
      have hderef : pool.deref x = some (pool.m_objects[x]) := by
        unfold MemPool.deref
        exact List.getElem?_eq_getElem hx
      simp only [List.length_append, List.length_cons] at hlen hf
      rw [InputPaths.deleteLoop, if_pos (by simp), hget]
      simp only [hderef]
      by_cases hu : (pool.m_objects[x]).IsUsed = true
      · have hnext : sizeAdd kept.length 1 = (kept ++ [x]).length := by
          simp only [sizeAdd, SIZE_MOD_eq, List.length_append, List.length_singleton] at *
          omega
        have hsplit : kept ++ x :: xs = (kept ++ [x]) ++ xs := by simp
        rw [if_neg (by simp [hu]), hnext, hsplit]
        exact ih (kept ++ [x]) fuel (by omega) (by simp; omega)
          (fun p hp => hvalid p (List.mem_cons_of_mem _ hp))
      · have herase : (kept ++ x :: xs).eraseIdx kept.length = kept ++ xs := by
          rw [List.eraseIdx_append_of_length_le (Nat.le_refl _), Nat.sub_self]
          rfl
        rw [if_pos (by simp [hu]), herase]
        exact ih kept fuel (by omega) (by simp; omega)
          (fun p hp => hvalid p (List.mem_cons_of_mem _ hp))

/-- One iteration of the pruning loop: the element at `ind` is read inside the
vector, and the loop goes on either with that element erased and `ind` unchanged,
or with the vector unchanged and `ind` advanced by one. -/
theorem deleteLoop_step (pool : MemPool) (fuel ind : Nat) (paths : List Ptr)
    (hind : ind < paths.length) (hlen : paths.length < SIZE_MOD)
    (hvalid : ∀ p ∈ paths, p < pool.m_objects.length) :
    ∃ (path : Ptr) (ind1 : Nat) (paths1 : List Ptr),
      paths[ind]? = some path ∧
      InputPaths.deleteLoop pool (fuel + 1) ind paths
        = InputPaths.deleteLoop pool fuel ind1 paths1 ∧
      ((paths1 = paths.eraseIdx ind ∧ ind1 = ind ∧ paths1.length + 1 = paths.length) ∨
        (paths1 = paths ∧ ind1 = ind + 1)) ∧
      ind1 ≤ paths1.length ∧
      paths1.length - ind1 + 1 = paths.length - ind := by
  have hget : paths[ind]? = some paths[ind] := List.getElem?_eq_getElem hind
  have hx : paths[ind] < pool.m_objects.length := hvalid _ (List.getElem_mem _)
  have hderef : pool.deref paths[ind] = some (pool.m_objects[paths[ind]]) := by
    unfold MemPool.deref
    exact List.getElem?_eq_getElem hx
  by_cases hu : (pool.m_objects[paths[ind]]).IsUsed = true
  · refine ⟨paths[ind], ind + 1, paths, hget, ?_, Or.inr ⟨rfl, rfl⟩, by omega, by omega⟩
    have hnext : sizeAdd ind 1 = ind + 1 := by
      simp only [sizeAdd, SIZE_MOD_eq] at *
      omega
    rw [InputPaths.deleteLoop, if_pos hind, hget]
    simp only [hderef]
    rw [if_neg (by simp [hu]), hnext]
  · have hel : (paths.eraseIdx ind).length + 1 = paths.length := by
      rw [List.length_eraseIdx, if_pos hind]
      omega
    refine ⟨paths[ind], ind, paths.eraseIdx ind, hget, ?_, Or.inl ⟨rfl, rfl, hel⟩,
      by omega, by omega⟩
    rw [InputPaths.deleteLoop, if_pos hind, hget]
    simp only [hderef]
    rw [if_pos (by simp [hu])]

/-- C19: the erase-while-iterating loop of `DeleteUnusedPaths` terminates for every
flat collection (of pointers to nodes of the pool). With more loop tests than the
initial length the loop returns, with at most that many it does not: it runs
exactly as many iterations as the initial length of `m_inputPaths`. Each iteration
reads an element inside the vector and either removes one element or advances
`ind` by one, so `size - ind` decreases by one and `ind` never passes the end. -/
theorem C19_delete_loop_terminates (self : InputPaths) (pool : MemPool)
    (hlen : self.m_inputPaths.length < SIZE_MOD)
    (hvalid : ∀ p ∈ self.m_inputPaths, p < pool.m_objects.length) :
    (∀ fuel, self.m_inputPaths.length < fuel →
      ∃ paths, InputPaths.deleteLoop pool fuel 0 self.m_inputPaths = some paths ∧
        ∃ st, self.DeleteUnusedPaths fuel pool = some st) ∧
    (∀ fuel, fuel ≤ self.m_inputPaths.length →
      InputPaths.deleteLoop pool fuel 0 self.m_inputPaths = none) ∧
    (∀ (fuel ind : Nat) (paths : List Ptr), ind < paths.length →
      paths.length < SIZE_MOD → (∀ p ∈ paths, p < pool.m_objects.length) →
      ∃ (path : Ptr) (ind1 : Nat) (paths1 : List Ptr),
        paths[ind]? = some path ∧
        InputPaths.deleteLoop pool (fuel + 1) ind paths
          = InputPaths.deleteLoop pool fuel ind1 paths1 ∧
        ((paths1 = paths.eraseIdx ind ∧ ind1 = ind ∧ paths1.length + 1 = paths.length) ∨
          (paths1 = paths ∧ ind1 = ind + 1)) ∧
        ind1 ≤ paths1.length ∧
        paths1.length - ind1 + 1 = paths.length - ind) := by
  refine ⟨?_, ?_, ?_⟩
  · intro fuel hf
    have h := deleteLoop_run pool self.m_inputPaths [] fuel hf (by simpa using hlen) hvalid
    simp only [List.length_nil, List.nil_append] at h
    exact ⟨_, h, _, DeleteUnusedPaths_run self fuel pool hf hlen hvalid⟩
  · intro fuel hf
    have h := deleteLoop_short pool self.m_inputPaths [] fuel hf (by simpa using hlen) hvalid
    simpa using h
  · intro fuel ind paths h1 h2 h3
    exact deleteLoop_step pool fuel ind paths h1 h2 h3

theorem C19_delete_loop_terminates_witness :
    (prunable.m_inputPaths.length < SIZE_MOD ∧
      ∀ p ∈ prunable.m_inputPaths, p < poolUsed13.m_objects.length) ∧
    ((∀ fuel, prunable.m_inputPaths.length < fuel →
      ∃ paths, InputPaths.deleteLoop poolUsed13 fuel 0 prunable.m_inputPaths = some paths ∧
        ∃ st, prunable.DeleteUnusedPaths fuel poolUsed13 = some st) ∧
    (∀ fuel, fuel ≤ prunable.m_inputPaths.length →
      InputPaths.deleteLoop poolUsed13 fuel 0 prunable.m_inputPaths = none) ∧
    (∀ (fuel ind : Nat) (paths : List Ptr), ind < paths.length →
      paths.length < SIZE_MOD → (∀ p ∈ paths, p < poolUsed13.m_objects.length) →
      ∃ (path : Ptr) (ind1 : Nat) (paths1 : List Ptr),
        paths[ind]? = some path ∧
        InputPaths.deleteLoop poolUsed13 (fuel + 1) ind paths
          = InputPaths.deleteLoop poolUsed13 fuel ind1 paths1 ∧
        ((paths1 = paths.eraseIdx ind ∧ ind1 = ind ∧ paths1.length + 1 = paths.length) ∨
          (paths1 = paths ∧ ind1 = ind + 1)) ∧
        ind1 ≤ paths1.length ∧
        paths1.length - ind1 + 1 = paths.length - ind)) :=
  ⟨⟨by decide, by decide⟩,
    C19_delete_loop_terminates prunable poolUsed13 (by decide) (by decide)⟩

/-- On the flat collection `[0, 1, 2, 3]` four loop tests are not enough and five
are: the loop makes four iterations before the test that ends it. -/
theorem deleteLoop_prunable_iterations :
    InputPaths.deleteLoop poolUsed13 4 0 prunable.m_inputPaths = none ∧
    InputPaths.deleteLoop poolUsed13 5 0 prunable.m_inputPaths = some [1, 3] := by
  decide

/-! ## Accesses made by `Init` -/

/-- Forgetting the recorded accesses, the recording inner loop is the inner loop. -/
theorem innerLoopTrace_erase (input : PhraseImpl) (size maxLength numPt startPos : Nat) :
    ∀ (fuel phaseSize : Nat) (pre : Option Ptr) (st : InputPaths × MemPool)
      (log : List Access),
      (InputPaths.innerLoopTrace input size maxLength numPt startPos fuel phaseSize pre
        (st, log)).map Prod.fst
        = InputPaths.innerLoop input size maxLength numPt startPos fuel phaseSize pre st := by
  intro fuel
  induction fuel with
  | zero => intro _ _ _ _; rfl
  | succ fuel ih =>
    intro phaseSize pre st log
    obtain ⟨self, pool⟩ := st
    rw [InputPaths.innerLoopTrace, InputPaths.innerLoop]
    by_cases h1 : phaseSize ≤ maxLength
    · rw [if_pos h1, if_pos h1]
      simp only
      by_cases h2 : sizeSub (sizeAdd startPos phaseSize) 1 ≥ size
      · rw [if_pos h2, if_pos h2]
        rfl
      · rw [if_neg h2, if_neg h2]
        cases input.GetSubPhrase startPos (sizeSub (sizeAdd startPos phaseSize) 1) with
        | none => rfl
        | some subPhrase =>
          simp only
          cases self.m_matrix with
          | none => rfl
          | some matrix =>
            simp only
            cases matrix.SetValue startPos (sizeSub phaseSize 1)
                (some (pool.New (InputPath.new subPhrase
                  { m_startPos := startPos,
                    m_endPos := sizeSub (sizeAdd startPos phaseSize) 1 } numPt pre)).1) with
            | none => rfl
            | some matrix1 => exact ih _ _ _ _
    · rw [if_neg h1, if_neg h1]
      rfl

theorem outerLoopTrace_erase (input : PhraseImpl) (size maxLength numPt innerFuel : Nat) :
    ∀ (fuel startPos : Nat) (st : InputPaths × MemPool) (log : List Access),
      (InputPaths.outerLoopTrace input size maxLength numPt innerFuel fuel startPos
        (st, log)).map Prod.fst
        = InputPaths.outerLoop input size maxLength numPt innerFuel fuel startPos st := by
  intro fuel
  induction fuel with
  | zero => intro _ _ _; rfl
  | succ fuel ih =>
    intro startPos st log
    rw [InputPaths.outerLoopTrace, InputPaths.outerLoop]
    by_cases h1 : startPos < size
    · rw [if_pos h1, if_pos h1]
      have e := innerLoopTrace_erase input size maxLength numPt startPos innerFuel 1 none st log
      cases hT : InputPaths.innerLoopTrace input size maxLength numPt startPos innerFuel 1 none
          (st, log) with
      | none =>
        rw [hT] at e
        rw [← e]
        rfl
      | some st1 =>
        rw [hT] at e
        rw [← e]
        exact ih _ st1.1 st1.2
    · rw [if_neg h1, if_neg h1]
      rfl

/-- Forgetting the recorded accesses, `InitTrace` is `Init`. -/
theorem InitTrace_erase (self : InputPaths) (fuel : Nat) (input : PhraseImpl) (mgr : Manager) :
    (self.InitTrace fuel input mgr).map Prod.fst = self.Init fuel input mgr := by
  unfold InputPaths.InitTrace InputPaths.Init
  cases input.GetSubPhrase NOT_FOUND NOT_FOUND with
  | none => rfl
  | some subPhrase => exact outerLoopTrace_erase _ _ _ _ _ _ _ _ _

theorem innerLoopTrace_inBounds (input : PhraseImpl) (n M numPt s : Nat)
    (hn : n + 1 < SIZE_MOD) (hs : s < n) (hM : M ≤ n) :
    ∀ (fuel L : Nat) (pre : Option Ptr) (st : InputPaths × MemPool) (log : List Access)
      (res : (InputPaths × MemPool) × List Access),
      1 ≤ L → s + L ≤ n + 1 → (∀ a ∈ log, a.inBounds n M = true) →
      InputPaths.innerLoopTrace input n M numPt s fuel L pre (st, log) = some res →
      ∀ a ∈ res.2, a.inBounds n M = true := by
  intro fuel
  induction fuel with
  | zero =>
    intro L pre st log res _ _ _ h
    exact Option.noConfusion h
  | succ fuel ih =>
    intro L pre st log res hL hsL hlog h
    obtain ⟨self, pool⟩ := st
    have hend : sizeSub (sizeAdd s L) 1 = s + L - 1 := by
      simp only [sizeAdd, sizeSub, SIZE_MOD_eq] at *
      omega
    have hcol : sizeSub L 1 = L - 1 := by
      simp only [sizeSub, SIZE_MOD_eq] at *
      omega
    have hnext : L ≤ M → sizeAdd L 1 = L + 1 := by
      intro hLM
      simp only [sizeAdd, SIZE_MOD_eq] at *
      omega
    have hlog1 : ∀ a ∈ log ++ [Access.endPos s L], a.inBounds n M = true := by
      intro a ha
      rw [List.mem_append, List.mem_singleton] at ha
      rcases ha with ha | ha
      · exact hlog a ha
      · subst ha
        simp only [Access.inBounds, decide_eq_true_eq]
        omega
    rw [InputPaths.innerLoopTrace] at h
    by_cases h1 : L ≤ M
    · rw [if_pos h1] at h
      simp only [hend, hcol, hnext h1] at h
      by_cases h2 : s + L - 1 ≥ n
      · rw [if_pos h2] at h
        cases h
        exact hlog1
      · rw [if_neg h2] at h
        have hlog3 : ∀ a ∈ log ++ [Access.endPos s L] ++ [Access.getSubPhrase s (s + L - 1)]
            ++ [Access.setValue s (L - 1)], a.inBounds n M = true := by
          intro a ha
          rw [List.mem_append, List.mem_singleton, List.mem_append, List.mem_singleton] at ha
          rcases ha with (ha | ha) | ha
          · exact hlog1 a ha
          · subst ha
            simp only [Access.inBounds, decide_eq_true_eq]
            omega
          · subst ha
            simp only [Access.inBounds, decide_eq_true_eq]
            omega
        cases hsub : input.GetSubPhrase s (s + L - 1) with
        | none =>
          rw [hsub] at h
          exact Option.noConfusion h
        | some subPhrase =>
          rw [hsub] at h
          simp only at h
          cases hmat : self.m_matrix with
          | none =>
            rw [hmat] at h
            exact Option.noConfusion h
          | some matrix =>
            rw [hmat] at h
            simp only at h
            cases hset : matrix.SetValue s (L - 1)
                (some (pool.New (InputPath.new subPhrase
                  { m_startPos := s, m_endPos := s + L - 1 } numPt pre)).1) with
            | none =>
              rw [hset] at h
              exact Option.noConfusion h
            | some matrix1 =>
              rw [hset] at h
              exact ih (L + 1) _ _ _ res (by omega) (by omega) hlog3 h
    · rw [if_neg h1] at h
      cases h
      exact hlog

theorem outerLoopTrace_inBounds (input : PhraseImpl) (n M numPt innerFuel : Nat)
    (hn : n + 1 < SIZE_MOD) (hM : M ≤ n) :
    ∀ (fuel s : Nat) (st : InputPaths × MemPool) (log : List Access)
      (res : (InputPaths × MemPool) × List Access),
      (∀ a ∈ log, a.inBounds n M = true) →
      InputPaths.outerLoopTrace input n M numPt innerFuel fuel s (st, log) = some res →
      ∀ a ∈ res.2, a.inBounds n M = true := by
  intro fuel
  induction fuel with
  | zero =>
    intro s st log res _ h
    exact Option.noConfusion h
  | succ fuel ih =>
    intro s st log res hlog h
    rw [InputPaths.outerLoopTrace] at h
    by_cases h1 : s < n
    · rw [if_pos h1] at h
      cases hT : InputPaths.innerLoopTrace input n M numPt s innerFuel 1 none (st, log) with
      | none =>
        rw [hT] at h
        exact Option.noConfusion h
      | some st1 =>
        rw [hT] at h
        have hlog1 := innerLoopTrace_inBounds input n M numPt s hn h1 hM innerFuel 1 none st log
          st1 (Nat.le_refl 1) (by omega) hlog hT
        exact ih _ st1.1 st1.2 res hlog1 h
    · rw [if_neg h1] at h
      cases h
      exact hlog

/-- C17: every access made by `Init` is in bounds. `Init` returns, and in the
record of the accesses of its loops every `SetValue(startPos, phaseSize - 1, path)`
has `startPos < size` and `phaseSize - 1 < maxLength`, every
`GetSubPhrase(startPos, endPos)` has `startPos ≤ endPos < size`, and every
computation of `endPos = startPos + phaseSize - 1` has
`1 ≤ startPos + phaseSize < 2 ^ 64`, so it does not wrap. -/
theorem C17_accesses_in_bounds (self : InputPaths) (fuel : Nat) (input : PhraseImpl)
    (mgr : Manager) (hn : input.GetSize < NOT_FOUND) (hfuel : input.GetSize < fuel) :
    ∃ st log, self.InitTrace fuel input mgr = some (st, log) ∧
      self.Init fuel input mgr = some st ∧
      ∀ a ∈ log,
        a.inBounds input.GetSize (min input.GetSize mgr.system.maxPhraseLength) = true := by
  have hn1 : input.GetSize + 1 < SIZE_MOD := by
    simp only [NOT_FOUND_eq, SIZE_MOD_eq] at *
    omega
  obtain ⟨mat, hrun, -, -, -⟩ := Init_run self fuel input mgr (by omega) hfuel
  have herase := InitTrace_erase self fuel input mgr
  rw [hrun] at herase
  cases hT : self.InitTrace fuel input mgr with
  | none =>
    rw [hT] at herase
    exact Option.noConfusion herase
  | some res =>
    rw [hT] at herase
    obtain ⟨st, log⟩ := res
    have hst := Option.some.inj herase
    simp only at hst
    refine ⟨st, log, rfl, by rw [hrun, hst], ?_⟩
    unfold InputPaths.InitTrace at hT
    cases hsub : input.GetSubPhrase NOT_FOUND NOT_FOUND with
    | none =>
      rw [hsub] at hT
      exact Option.noConfusion hT
    | some subPhrase =>
      rw [hsub] at hT
      exact outerLoopTrace_inBounds input _ _ _ _ hn1 (Nat.min_le_left _ _) _ _ _ _ _
        (fun a ha => absurd ha (List.not_mem_nil a)) hT

theorem C17_accesses_in_bounds_witness :
    (sentence3.GetSize < NOT_FOUND ∧ sentence3.GetSize < 4) ∧
    ∃ st log, InputPaths.empty.InitTrace 4 sentence3 manager2 = some (st, log) ∧
      InputPaths.empty.Init 4 sentence3 manager2 = some st ∧
      ∀ a ∈ log,
        a.inBounds sentence3.GetSize
          (min sentence3.GetSize manager2.system.maxPhraseLength) = true :=
  ⟨⟨by decide, by decide⟩,
    C17_accesses_in_bounds InputPaths.empty 4 sentence3 manager2 (by decide) (by decide)⟩

/-- The accesses `Init` makes for the three-token sentence with
`maxPhraseLength = 2`: two full iterations for each of the start positions 0 and 1,
and for start position 2 one iteration and the computation of the `endPos` that
breaks the inner loop. -/
theorem InitTrace_sentence3 :
    (InputPaths.empty.InitTrace 4 sentence3 manager2).map Prod.snd
      = some [Access.endPos 0 1, Access.getSubPhrase 0 0, Access.setValue 0 0,
              Access.endPos 0 2, Access.getSubPhrase 0 1, Access.setValue 0 1,
              Access.endPos 1 1, Access.getSubPhrase 1 1, Access.setValue 1 0,
              Access.endPos 1 2, Access.getSubPhrase 1 2, Access.setValue 1 1,
              Access.endPos 2 1, Access.getSubPhrase 2 2, Access.setValue 2 0,
              Access.endPos 2 2] := by
  decide

end Moses2
